import Mathlib

/-
Shallow embedding of the component registry and inheritance resolution engine
of the uuf-template-app repository (src/lib/utils.js), together with theorems
settling the specification claims about it.

Modelling conventions:
- JavaScript definition documents (JSON values) are modelled by the inductive
  type JVal; JS objects are association lists in property insertion order.
- Mutable component objects are modelled by a store (a list indexed by object
  id); JS object references are store indices.  The "children" array of a
  component receives component object references in the source, while the
  comparator searches it for a full-name string; the element type JsElem keeps
  both shapes so that JS strict equality between an object reference and a
  string can be expressed faithfully.
- Machine numbers in the definitions are modelled as Int (the source only ever
  compares and parses integral index values).
- Fallible code (throw new Error) is modelled with Except String.
-/

/-- JS primitive (scalar) values occurring in definition documents. -/
inductive JPrim where
  | str : String → JPrim
  | num : Int → JPrim
  | bool : Bool → JPrim
  | null : JPrim
deriving Repr, DecidableEq

/-- JSON-like definition values: scalars, sequences and nested objects. -/
inductive JVal where
  | prim : JPrim → JVal
  | arr : List JVal → JVal
  | obj : List (String × JVal) → JVal
deriving Repr

/-- JS object property read: first binding of the key, none models undefined. -/
def alistGet {α : Type} (l : List (String × α)) (k : String) : Option α :=
  match l with
  | [] => none
  | (k0, v) :: rest => if k0 = k then some v else alistGet rest k

/-- JS object property write: updates the existing binding in place (keeping
its position, as JS assignment keeps property insertion order) or appends a
new binding. -/
def alistPut {α : Type} (l : List (String × α)) (k : String) (v : α) : List (String × α) :=
  match l with
  | [] => [(k, v)]
  | (k0, v0) :: rest => if k0 = k then (k0, v) :: rest else (k0, v0) :: alistPut rest k v

/-- JS falsiness of a primitive value. -/
def jsFalsyP : JPrim → Bool
  | .null => true
  | .bool b => !b
  | .num n => n == 0
  | .str s => s == ""

/-- JS truthiness of a value (arrays and objects are always truthy). -/
def jsTruthy : JVal → Bool
  | .prim p => !jsFalsyP p
  | .arr _ => true
  | .obj _ => true

/-- JS truthiness of a possibly-undefined value. -/
def jsTruthyOpt : Option JVal → Bool
  | none => false
  | some v => jsTruthy v

mutual

/-- utils.js extend, value level: models extend(child, parent) where child is
the possibly-undefined current value of a property.  JS semantics followed:
a falsy child is replaced by an empty object (child = child || \x7b\x7d); a truthy
primitive child is returned unchanged (property assignments on a primitive are
silent no-ops in sloppy mode); an array child is returned unchanged (in JS,
string-keyed properties grafted onto the array object would be invisible to
every consumer of sequence fields in this code base, and no claim exercises
that corner); an object child is extended field by field from the parent.
A null parent (typeof null is object in JS) contributes no fields. -/
def extendVal (child : Option JVal) (parent : JVal) : JVal :=
  match child with
  | some (.prim p) =>
      if jsFalsyP p then
        match parent with
        | .obj pfs => .obj (extendFields [] pfs)
        | _ => .obj []
      else .prim p
  | some (.arr xs) => .arr xs
  | some (.obj fs) =>
      match parent with
      | .obj pfs => .obj (extendFields fs pfs)
      | _ => .obj fs
  | none =>
      match parent with
      | .obj pfs => .obj (extendFields [] pfs)
      | _ => .obj []

/-- utils.js extend, object level: iterates the parent object's own properties
in insertion order.  A parent array value always overwrites the child binding;
a parent object (or null) value is merged recursively into the child binding;
a parent scalar is copied only when the child has no own binding for the key. -/
def extendFields (child : List (String × JVal)) (parent : List (String × JVal)) :
    List (String × JVal) :=
  match parent with
  | [] => child
  | (k, v) :: rest =>
      let child2 :=
        match v with
        | .arr xs => alistPut child k (.arr xs)
        | .obj pfs => alistPut child k (extendVal (alistGet child k) (.obj pfs))
        | .prim .null => alistPut child k (extendVal (alistGet child k) (.prim .null))
        | .prim p => if (alistGet child k).isSome then child else alistPut child k (.prim p)
      extendFields child2 rest

end

/-- utils.js extend as called on two definition documents (both JS objects). -/
def extend (child parent : List (String × JVal)) : List (String × JVal) :=
  extendFields child parent

/-- JS String.toLowerCase restricted to ASCII (the definition documents of
this repository use ASCII field values; non-ASCII case folding is outside the
model). -/
def strToLowerJs (s : String) : String :=
  String.mk (s.toList.map (fun c =>
    if 65 ≤ c.toNat && c.toNat ≤ 90 then Char.ofNat (c.toNat + 32) else c))

/-- utils.parseBoolean: switch on typeof obj.  none models undefined; the
defaultValue parameter models the optional second argument (none when omitted
or passed null or undefined, matching the loose defaultValue == null test). -/
def parseBoolean (obj : Option JVal) (defaultValue : Option Bool) : Bool :=
  match obj with
  | some (.prim (.bool b)) => b
  | some (.prim (.num n)) => decide (0 < n)
  | some (.prim (.str s)) => (strToLowerJs s == "true") || (strToLowerJs s == "yes")
  | some (.prim .null) => defaultValue.getD false
  | none => defaultValue.getD false
  | some (.arr _) => true
  | some (.obj _) => true

/-- Index of the last "." in a string (JS String.lastIndexOf), -1 if absent. -/
def jsLastIndexOfDotAux : List Char → Int → Int → Int
  | [], _, best => best
  | c :: cs, i, best => jsLastIndexOfDotAux cs (i + 1) (if c = Char.ofNat 46 then i else best)

/-- JS s.lastIndexOf for the single-character needle "." used by the source. -/
def jsLastIndexOfDot (s : String) : Int :=
  jsLastIndexOfDotAux s.toList 0 (-1)

/-- JS s.substr(n): the suffix starting at character position n. -/
def strDropJs (s : String) (n : Nat) : String :=
  String.mk (s.toList.drop n)

/-- JS s.substr(0, len): the prefix of the given length; a non-positive length
yields the empty string. -/
def strTakeJs (s : String) (len : Int) : String :=
  String.mk (s.toList.take len.toNat)

/-- Accumulates a decimal digit prefix, stopping at the first non-digit. -/
def digitsToNat : List Char → Nat → Nat
  | [], acc => acc
  | c :: cs, acc => if c.isDigit then digitsToNat cs (acc * 10 + (c.toNat - 48)) else acc

/-- Parses a leading decimal digit run; none when the list starts with no digit. -/
def parseDigits : List Char → Option Nat
  | [] => none
  | c :: cs => if c.isDigit then some (digitsToNat cs (c.toNat - 48)) else none

/-- JS parseInt on a string: skip leading whitespace, optional sign, then the
longest decimal digit prefix; none models NaN.  Hexadecimal 0x prefixes are
not modelled (no definition document in this repository uses them). -/
def parseIntStr (s : String) : Option Int :=
  match s.toList.dropWhile (fun c => c.isWhitespace) with
  | [] => none
  | c :: cs =>
      if c = Char.ofNat 45 then (parseDigits cs).map (fun n => -(n : Int))
      else if c = Char.ofNat 43 then (parseDigits cs).map (fun n => (n : Int))
      else (parseDigits (c :: cs)).map (fun n => (n : Int))

/-- JS parseInt applied to a possibly-undefined definition property value.
parseInt of a number is the number truncated toward zero (definition index
values are modelled as integers already); parseInt of booleans, null,
undefined and plain objects is NaN (none).  A single-element numeric array
would stringify and re-parse in JS, a corner no claim or definition document
in this repository exercises. -/
def parseIntJs : Option JVal → Option Int
  | some (.prim (.num n)) => some n
  | some (.prim (.str s)) => parseIntStr s
  | _ => none

/-- Modelled from the spec: constants.js is not under src/.  The definition
keys and directory paths below are opaque placeholder values; no claim depends
on the concrete strings, only on the keys being fixed and distinct. -/
def UI_COMPONENT_DEFINITION_VERSION : String := "version"

/-- Modelled from the spec: constants.js is not under src/ (page URI key). -/
def PAGE_DEFINITION_URI : String := "uri"

/-- Modelled from the spec: constants.js is not under src/ (page layout key). -/
def PAGE_DEFINITION_LAYOUT : String := "layout"

/-- Modelled from the spec: constants.js is not under src/ (priority key). -/
def UI_COMPONENT_DEFINITION_INDEX : String := "index"

/-- Modelled from the spec: constants.js is not under src/ (disabled key). -/
def UI_COMPONENT_DEFINITION_DISABLED : String := "disabled"

/-- Modelled from the spec: constants.js is not under src/ (parent reference key). -/
def UI_COMPONENT_DEFINITION_EXTENDS : String := "extends"

/-- Modelled from the spec: constants.js is not under src/ (div pushed URIs key). -/
def DIV_DEFINITION_PUSHED_URIS : String := "pushedUris"

/-- Modelled from the spec: constants.js is not under src/ (components root). -/
def DIRECTORY_APP_COMPONENTS : String := "/app/components"

/-- Modelled from the spec: constants.js is not under src/ (layouts directory). -/
def DIRECTORY_APP_LAYOUTS : String := "/app/layouts"

/-- Modelled from the spec: constants.js is not under src/ (per-collection divs
sub-path appended after the collection directory). -/
def DIRECTORY_APP_DIVS : String := "/divs"

/-- Modelled from the spec: constants.js is not under src/ (per-collection pages
sub-path appended after the collection directory). -/
def DIRECTORY_APP_PAGES : String := "/pages"

/-- An element of a JS array that may hold either a component object reference
(a store index) or a string.  The inheritance resolver pushes component object
references onto children arrays, while the comparator searches those arrays
for full-name strings; JS strict equality distinguishes the two shapes. -/
inductive JsElem where
  | ref : Nat → JsElem
  | str : String → JsElem
deriving Repr, DecidableEq

/-- Whether a JS array element is a component object reference. -/
def JsElem.isRef : JsElem → Bool
  | .ref _ => true
  | .str _ => false

/-- JS strict equality between two children-array elements: object references
are equal exactly when they are the same object; an object reference is never
equal to a string. -/
def jsElemBeq : JsElem → JsElem → Bool
  | .ref a, .ref b => a == b
  | .str a, .str b => a == b
  | _, _ => false

/-- Position of the first strictly-equal element, used by Array.indexOf. -/
def jsIndexOfAux : List JsElem → JsElem → Option Nat
  | [], _ => none
  | y :: ys, x => if jsElemBeq y x then some 0 else (jsIndexOfAux ys x).map (fun n => n + 1)

/-- JS Array.prototype.indexOf over a children array: index of the first
strictly-equal element, -1 when none matches. -/
def jsIndexOf (xs : List JsElem) (x : JsElem) : Int :=
  match jsIndexOfAux xs x with
  | none => -1
  | some n => (n : Int)

/-- A UI component object (models.js is not under src/; the fields are exactly
the ones utils.js reads and writes, with unset index modelled as none). -/
structure UIComponent where
  fullName : String
  shortName : String
  path : String
  type : String
  templateFilePath : Option String
  scriptFilePath : Option String
  definition : List (String × JVal)
  parents : List Nat
  children : List JsElem
  disabled : Bool
  index : Option Int
deriving Repr, Inhabited

/-- The effective priority used by the comparator: parseInt of the definition
index field, with the sentinel 1000000 replacing NaN. -/
def effIndex (c : UIComponent) : Int :=
  (parseIntJs (alistGet c.definition UI_COMPONENT_DEFINITION_INDEX)).getD 1000000

/-- Lexicographic comparison of two character lists by code point. -/
def charListCompare : List Char → List Char → Int
  | [], [] => 0
  | [], _ :: _ => -1
  | _ :: _, [] => 1
  | a :: as, b :: bs =>
      if a.toNat < b.toNat then -1
      else if b.toNat < a.toNat then 1
      else charListCompare as bs

/-- Sign model of JS String.localeCompare: lexicographic comparison by code
points (the locale refinements of localeCompare are outside the model). -/
def strCompare (a b : String) : Int :=
  charListCompare a.toList b.toList

/-- utils.js compareRawUiComponents: priority order with the source's
tie-break structure, including the searches of the children arrays for the
other component's full name. -/
def compareRawUiComponents (a b : UIComponent) : Int :=
  let aIndex := effIndex a
  let bIndex := effIndex b
  if aIndex = bIndex then
    if aIndex = 1000000 then strCompare a.fullName b.fullName
    else if jsIndexOf a.children (JsElem.str b.fullName) ≥ 0 then 1
    else if jsIndexOf b.children (JsElem.str a.fullName) ≥ 0 then -1
    else strCompare a.fullName b.fullName
  else if aIndex > bIndex then 1 else -1

/-- JS coercion of a value to an object property key (String(value)).  The
array case joins elements in JS; the placeholder is never exercised because
definition documents use string keys for extends, URIs and layout names. -/
def jsToPropKey : JVal → String
  | .prim (.str s) => s
  | .prim (.num n) => toString n
  | .prim (.bool b) => if b then "true" else "false"
  | .prim .null => "null"
  | .arr _ => ""
  | .obj _ => "[object Object]"

/-- JS property-key coercion of a possibly-undefined value. -/
def jsToPropKeyOpt : Option JVal → String
  | none => "undefined"
  | some v => jsToPropKey v

/-- The element sequence a JS for(n < value.length) loop visits: arrays yield
their elements, strings yield their characters (one-character strings), and
values with no length property yield nothing. -/
def jsSeqElems : JVal → List JVal
  | .arr xs => xs
  | .prim (.str s) => s.toList.map (fun c => JVal.prim (JPrim.str (String.mk [c])))
  | _ => []

/-- A directory entry as returned by File.listFiles: its name and whether it
is a directory. -/
structure FsEntry where
  name : String
  isDirectory : Bool
deriving Repr, DecidableEq

/-- The filesystem collaborator: directory listing, existence of a plain file
(isExists and not isDirectory) at a full path, and the parsed definition
document loaded from a full path (require of a .json file). -/
structure FileSys where
  listFiles : String → List FsEntry
  fileExists : String → Bool
  defn : String → List (String × JVal)

/-- models.Layout: a layout full name and the path of its template file. -/
structure Layout where
  fullName : String
  path : String
deriving Repr, DecidableEq

/-- One iteration of the getLayoutsData loop: skip directories and files whose
extension after the last dot is not hbs; register the rest under the name with
the extension removed. -/
def layoutStep (layoutsDir : String) (acc : List (String × Layout)) (f : FsEntry) :
    List (String × Layout) :=
  if f.isDirectory then acc
  else
    let idx := jsLastIndexOfDot f.name
    if strDropJs f.name (idx + 1).toNat ≠ "hbs" then acc
    else alistPut acc (strTakeJs f.name idx) ⟨strTakeJs f.name idx, layoutsDir ++ "/" ++ f.name⟩

/-- utils.js getLayoutsData over the layouts directory listing. -/
def getLayoutsData (fs : FileSys) (layoutsDir : String) : List (String × Layout) :=
  (fs.listFiles layoutsDir).foldl (layoutStep layoutsDir) []

/-- The mutable component collections being populated: the object store (JS
heap for component objects), the by-full-name map and the ordered list (both
holding object references, i.e. store indices). -/
structure Registry where
  store : List UIComponent
  map : List (String × Nat)
  list : List Nat
deriving Repr, Inhabited

/-- Reads a component object from the store. -/
def storeGet (store : List UIComponent) (i : Nat) : UIComponent :=
  store.getD i default

/-- Functional update of one store slot (a no-op out of range, matching that
object ids are only ever created by the store itself). -/
def lset {α : Type} : List α → Nat → α → List α
  | [], _, _ => []
  | _ :: xs, 0, v => v :: xs
  | x :: xs, n + 1, v => x :: lset xs n v

/-- One candidate directory of populateComponentCollections: derive the names,
probe template and script files, require the mandatory definition document,
then register the fresh component object in the map and the list. -/
def populateStep (fs : FileSys) (componentsPath componentType : String) (reg : Registry)
    (entry : FsEntry) : Except String Registry :=
  if !entry.isDirectory then .ok reg
  else
    let componentFullName := entry.name
    let componentShortName :=
      strDropJs componentFullName (jsLastIndexOfDot componentFullName + 1).toNat
    if componentShortName = "" then
      .error ("Name '" ++ componentFullName ++ "' of " ++ componentType ++ " is invalid.")
    else
      let componentPath := componentsPath ++ "/" ++ componentFullName
      let templatePath := componentPath ++ "/" ++ componentShortName ++ ".hbs"
      let scriptPath := componentPath ++ "/" ++ componentShortName ++ ".js"
      let definitionPath := componentPath ++ "/" ++ componentShortName ++ ".json"
      if !fs.fileExists definitionPath then
        .error ("Definition file of " ++ componentType ++ " '" ++ componentFullName
          ++ "' does not exists.")
      else
        let c : UIComponent :=
          { fullName := componentFullName
            shortName := componentShortName
            path := componentPath
            type := componentType
            templateFilePath := if fs.fileExists templatePath then some templatePath else none
            scriptFilePath := if fs.fileExists scriptPath then some scriptPath else none
            definition := fs.defn definitionPath
            parents := []
            children := []
            disabled := false
            index := none }
        .ok { store := reg.store ++ [c]
              map := alistPut reg.map componentFullName reg.store.length
              list := reg.list ++ [reg.store.length] }

/-- The populateComponentCollections loop over an explicit listing. -/
def populateList (fs : FileSys) (componentsPath componentType : String) :
    List FsEntry → Registry → Except String Registry
  | [], reg => .ok reg
  | e :: es, reg =>
      match populateStep fs componentsPath componentType reg e with
      | .error msg => .error msg
      | .ok reg2 => populateList fs componentsPath componentType es reg2

/-- utils.js populateComponentCollections for one components directory. -/
def populateComponentCollections (fs : FileSys) (componentsPath componentType : String)
    (reg : Registry) : Except String Registry :=
  populateList fs componentsPath componentType (fs.listFiles componentsPath) reg

/-- The collection-directory traversal at the top of getUiComponentsData:
every directory under the components root contributes its per-type
sub-directory, merged into one registry in sequence. -/
def collectionsList (fs : FileSys) (componentType componentsPath : String) :
    List FsEntry → Registry → Except String Registry
  | [], reg => .ok reg
  | e :: es, reg =>
      if !e.isDirectory then collectionsList fs componentType componentsPath es reg
      else
        match populateComponentCollections fs
            (DIRECTORY_APP_COMPONENTS ++ "/" ++ e.name ++ componentsPath) componentType reg with
        | .error m => .error m
        | .ok reg2 => collectionsList fs componentType componentsPath es reg2

/-- The full discovery pass of getUiComponentsData, before inheritance
chaining and sorting; the registry list is in discovery (insertion) order. -/
def populateAll (fs : FileSys) (componentType componentsPath : String) : Except String Registry :=
  collectionsList fs componentType componentsPath (fs.listFiles DIRECTORY_APP_COMPONENTS)
    { store := [], map := [], list := [] }

/-- One step of the inheritance walk of getUiComponentsData: resolve the
parent by name in the map, append the component to the parent's children,
append the parent to the component's parents, merge the definitions, and
continue with the parent's own extends reference.  The source has no cycle
guard and loops forever on a cyclic extends graph (spec §9); the fuel bound
exceeds the number of components, so exhausting it reports the cycle as an
error instead. -/
def chainWalk (componentType : String) (cid : Nat) :
    Nat → Option JVal → Registry → Except String Registry
  | 0, _, _ => .error "Cyclic extends chain."
  | fuel + 1, parentVal, reg =>
      if !jsTruthyOpt parentVal then .ok reg
      else
        let parentKey := jsToPropKeyOpt parentVal
        match alistGet reg.map parentKey with
        | none =>
            let c := storeGet reg.store cid
            let immediateChild :=
              match c.parents.getLast? with
              | none => c.fullName
              | some pid => (storeGet reg.store pid).fullName
            .error ("Parent " ++ componentType ++ " '" ++ parentKey ++ "' of " ++ componentType
              ++ " '" ++ immediateChild ++ "' does not exists.")
        | some parentId =>
            let parentC := storeGet reg.store parentId
            let parentC2 := { parentC with children := parentC.children ++ [JsElem.ref cid] }
            let store2 := lset reg.store parentId parentC2
            let c := storeGet store2 cid
            let c2 := { c with parents := c.parents ++ [parentId]
                               definition := extend c.definition parentC2.definition }
            let store3 := lset store2 cid c2
            chainWalk componentType cid fuel
              (alistGet parentC2.definition UI_COMPONENT_DEFINITION_EXTENDS)
              { reg with store := store3 }

/-- The inheritance chaining loop of getUiComponentsData over the component
list. -/
def chainList (componentType : String) : List Nat → Registry → Except String Registry
  | [], reg => .ok reg
  | cid :: rest, reg =>
      match chainWalk componentType cid (reg.store.length + 1)
          (alistGet (storeGet reg.store cid).definition UI_COMPONENT_DEFINITION_EXTENDS) reg with
      | .error m => .error m
      | .ok reg2 => chainList componentType rest reg2

/-- Insertion into a comparator-sorted id list, keeping a later-inserted
element after the elements it compares equal to. -/
def orderedInsertCmp (store : List UIComponent) (id : Nat) : List Nat → List Nat
  | [] => [id]
  | x :: xs =>
      if compareRawUiComponents (storeGet store id) (storeGet store x) < 0 then id :: x :: xs
      else x :: orderedInsertCmp store id xs

/-- Model of Array.prototype.sort with compareRawUiComponents: a stable
insertion sort (the comparator returns 0 only on equal full names, so the
choice of stable algorithm fixes the result). -/
def sortIds (store : List UIComponent) (ids : List Nat) : List Nat :=
  ids.foldl (fun acc id => orderedInsertCmp store id acc) []

/-- utils.js getUiComponentsData: discovery across all collections,
inheritance chaining, then sorting of the component list. -/
def getUiComponentsData (fs : FileSys) (componentType componentsPath : String) :
    Except String Registry :=
  match populateAll fs componentType componentsPath with
  | .error m => .error m
  | .ok reg =>
      match chainList componentType reg.list reg with
      | .error m => .error m
      | .ok reg2 => .ok { reg2 with list := sortIds reg2.store reg2.list }

/-- utils.js validatePageDefinition: the merged definition must carry a truthy
version, a truthy URI, and a truthy layout reference naming a loaded layout.
The result pairs the success flag with the human-readable message. -/
def validatePageDefinition (page : UIComponent) (layoutsData : List (String × Layout)) :
    Bool × String :=
  if !jsTruthyOpt (alistGet page.definition UI_COMPONENT_DEFINITION_VERSION) then
    (false, "Page '" ++ page.fullName ++ "' or its parents do not have a version.")
  else if !jsTruthyOpt (alistGet page.definition PAGE_DEFINITION_URI) then
    (false, "Page '" ++ page.fullName ++ "' or its parents do not have a URI.")
  else
    let layoutVal := alistGet page.definition PAGE_DEFINITION_LAYOUT
    if !jsTruthyOpt layoutVal then
      (false, "Page '" ++ page.fullName ++ "' or its parents do not have a layout.")
    else if (alistGet layoutsData (jsToPropKeyOpt layoutVal)).isNone then
      (false, "Layout '" ++ jsToPropKeyOpt layoutVal ++ "' of page '" ++ page.fullName
        ++ "' does not exists.")
    else (true, "Valid page definition.")

/-- utils.js validateDivDefinition: the merged definition must carry a truthy
version; a truthy pushed-URIs field must be an array. -/
def validateDivDefinition (div : UIComponent) : Bool × String :=
  if !jsTruthyOpt (alistGet div.definition UI_COMPONENT_DEFINITION_VERSION) then
    (false, "Div '" ++ div.fullName ++ "' or its parents do not have a version.")
  else
    let pu := alistGet div.definition DIV_DEFINITION_PUSHED_URIS
    let isArr := match pu with | some (JVal.arr _) => true | _ => false
    if jsTruthyOpt pu && !isArr then
      (false, "Pushed URIs of div '" ++ div.fullName ++ "' should be a string array.")
    else (true, "Valid div definition.")

/-- A reference into the lookup table's component stores (JS holds the object
directly; per-type stores make the reference explicit). -/
inductive CompRef where
  | div : Nat → CompRef
  | page : Nat → CompRef
deriving Repr, DecidableEq

/-- The state threaded through the divs loop of getLookupTable. -/
structure DivLoopState where
  store : List UIComponent
  allUi : List (String × CompRef)
  pushedDivs : List (String × List String)
deriving Repr, Inhabited

/-- Appends a div's full name to the list kept for each of its pushed URI
patterns, creating empty lists on first use. -/
def pushPatterns (fullName : String) (acc0 : List (String × List String)) (patterns : List JVal) :
    List (String × List String) :=
  patterns.foldl
    (fun acc p =>
      let key := jsToPropKey p
      match alistGet acc key with
      | none => alistPut acc key [fullName]
      | some l => alistPut acc key (l ++ [fullName])) acc0

/-- One iteration of the divs loop of getLookupTable: assign the running index,
derive the disabled flag, skip disabled divs entirely, register enabled divs in
the all-components map, skip overridden divs (non-empty children) before
validation, then validate and record pushed URI patterns. -/
def divStep (i : Nat) (s : DivLoopState) (cid : Nat) : Except String DivLoopState :=
  let c0 := storeGet s.store cid
  let divDefinition := c0.definition
  let disabled := parseBoolean (alistGet divDefinition UI_COMPONENT_DEFINITION_DISABLED) none
  let c := { c0 with index := some (i : Int), disabled := disabled }
  let store := lset s.store cid c
  if disabled then .ok { s with store := store }
  else
    let allUi := alistPut s.allUi c.fullName (CompRef.div cid)
    if c.children.length ≠ 0 then .ok { store := store, allUi := allUi, pushedDivs := s.pushedDivs }
    else
      match validateDivDefinition c with
      | (false, msg) => .error msg
      | (true, _) =>
          match alistGet divDefinition DIV_DEFINITION_PUSHED_URIS with
          | none => .ok { store := store, allUi := allUi, pushedDivs := s.pushedDivs }
          | some v =>
              if jsTruthy v then
                .ok { store := store, allUi := allUi,
                      pushedDivs := pushPatterns c.fullName s.pushedDivs (jsSeqElems v) }
              else .ok { store := store, allUi := allUi, pushedDivs := s.pushedDivs }

/-- The divs loop of getLookupTable with its running counter. -/
def divLoop : Nat → List Nat → DivLoopState → Except String DivLoopState
  | _, [], s => .ok s
  | i, cid :: rest, s =>
      match divStep i s cid with
      | .error m => .error m
      | .ok s2 => divLoop (i + 1) rest s2

/-- The state threaded through the pages loop of getLookupTable. -/
structure PageLoopState where
  store : List UIComponent
  allUi : List (String × CompRef)
  uriPagesMap : List (String × String)
deriving Repr, Inhabited

/-- One iteration of the pages loop of getLookupTable: assign the running index
(offset by the number of divs), derive the disabled flag, skip disabled pages,
register enabled pages in the all-components map, skip overridden pages before
validation, then validate and register the page URI, failing on a collision.
The collision test is JS truthiness of the already-registered full name. -/
def pageStep (layoutsData : List (String × Layout)) (i : Nat) (s : PageLoopState) (cid : Nat) :
    Except String PageLoopState :=
  let c0 := storeGet s.store cid
  let pageDefinition := c0.definition
  let disabled := parseBoolean (alistGet pageDefinition UI_COMPONENT_DEFINITION_DISABLED) none
  let c := { c0 with index := some (i : Int), disabled := disabled }
  let store := lset s.store cid c
  if disabled then .ok { s with store := store }
  else
    let allUi := alistPut s.allUi c.fullName (CompRef.page cid)
    if c.children.length ≠ 0 then
      .ok { store := store, allUi := allUi, uriPagesMap := s.uriPagesMap }
    else
      match validatePageDefinition c layoutsData with
      | (false, msg) => .error msg
      | (true, _) =>
          let pageUriKey := jsToPropKeyOpt (alistGet pageDefinition PAGE_DEFINITION_URI)
          let existing := alistGet s.uriPagesMap pageUriKey
          if (match existing with | some name => name != "" | none => false) then
            .error ("Cannot register page '" ++ c.fullName ++ "' for URI '" ++ pageUriKey
              ++ "' since page '" ++ (existing.getD "") ++ "' already registered.")
          else
            .ok { store := store, allUi := allUi,
                  uriPagesMap := alistPut s.uriPagesMap pageUriKey c.fullName }

/-- The pages loop of getLookupTable with its running counter (starting at the
number of divs, the final value of the divs loop counter). -/
def pageLoop (layoutsData : List (String × Layout)) :
    Nat → List Nat → PageLoopState → Except String PageLoopState
  | _, [], s => .ok s
  | i, cid :: rest, s =>
      match pageStep layoutsData i s cid with
      | .error m => .error m
      | .ok s2 => pageLoop layoutsData (i + 1) rest s2

/-- The assembled lookup table.  The per-type object stores are part of the
model only: in JS the maps hold the component objects themselves. -/
structure LookupTable where
  layouts : List (String × Layout)
  pages : List (String × Nat)
  uriPagesMap : List (String × String)
  divs : List (String × Nat)
  pushedDivs : List (String × List String)
  uiComponents : List (String × CompRef)
  divStore : List UIComponent
  pageStore : List UIComponent
deriving Repr, Inhabited

/-- The registry build of utils.getLookupTable, without the cache shell:
layouts, div discovery and loop, page discovery and loop, then the table
record.  Any thrown error aborts the whole build. -/
def buildLookupTable (fs : FileSys) : Except String LookupTable :=
  let layoutsData := getLayoutsData fs DIRECTORY_APP_LAYOUTS
  match getUiComponentsData fs "div" DIRECTORY_APP_DIVS with
  | .error m => .error m
  | .ok divsData =>
      match divLoop 0 divsData.list { store := divsData.store, allUi := [], pushedDivs := [] } with
      | .error m => .error m
      | .ok ds =>
          match getUiComponentsData fs "page" DIRECTORY_APP_PAGES with
          | .error m => .error m
          | .ok pagesData =>
              match pageLoop layoutsData divsData.list.length pagesData.list
                  { store := pagesData.store, allUi := ds.allUi, uriPagesMap := [] } with
              | .error m => .error m
              | .ok ps =>
                  .ok { layouts := layoutsData
                        pages := pagesData.map
                        uriPagesMap := ps.uriPagesMap
                        divs := divsData.map
                        pushedDivs := ds.pushedDivs
                        uiComponents := ps.allUi
                        divStore := ds.store
                        pageStore := ps.store }

/-- Modelled from the spec: constants.js is not under src/ (caching flag key
in the application configuration). -/
def APP_CONF_CACHE_ENABLED : String := "cachingEnabled"

/-- utils.getLookupTable including the process-wide cache slot: with caching
enabled and a cached table present, the cached value is returned unchanged;
otherwise the table is rebuilt, and only a successful build writes the cache
slot (the write is unconditional on success, even with caching disabled).
The pair returned is (call result, cache slot after the call). -/
def getLookupTable (configs : List (String × JVal)) (fs : FileSys) (cache : Option LookupTable) :
    Except String LookupTable × Option LookupTable :=
  let isCachingEnabled := parseBoolean (alistGet configs APP_CONF_CACHE_ENABLED) none
  match (if isCachingEnabled then cache else none) with
  | some t => (.ok t, cache)
  | none =>
      match buildLookupTable fs with
      | .error m => (.error m, cache)
      | .ok t => (.ok t, some t)

/-- Modelled from the spec: models.js is not under src/.  UIComponent.compareTo
is the Ordering Engine comparator (spec §4.4, used for the §4.5 tie-break). -/
def compareTo (store : List UIComponent) (a b : Nat) : Int :=
  compareRawUiComponents (storeGet store a) (storeGet store b)

/-- The distance of a child from a queried parent: the position of the parent
in the child's parents sequence (nearest first), -1 when absent.  Modelled
from the spec where it relies on UIComponent.equals (models.js is not under
src/): equals is component identity, here store-index equality. -/
def childDistance (store : List UIComponent) (parentId childId : Nat) : Int :=
  match (storeGet store childId).parents.findIdx? (fun pid => pid == parentId) with
  | some j => (j : Int)
  | none => -1

/-- One iteration of the getFurthestChild loop: keep the child at maximal
distance, breaking distance ties by compareTo (only a result of 1 replaces the
current winner; 0 is logged and ignored in the source).  Children arrays hold
object references; a stray string element has no parents to inspect and is
skipped. -/
def furthestStep (store : List UIComponent) (parentId : Nat)
    (acc : Option Nat × Int) (el : JsElem) : Option Nat × Int :=
  match el with
  | .str _ => acc
  | .ref childId =>
      let d := childDistance store parentId childId
      if acc.2 < d then (some childId, d)
      else if acc.2 = d then
        match acc.1 with
        | none => acc
        | some fId => if compareTo store childId fId = 1 then (some childId, d) else acc
      else acc

/-- utils.getFurthestChild: a component with no children is its own furthest
child; otherwise the children are scanned for the maximal-distance child.
The none result models the source returning null (reachable only when no
child records the queried component among its parents, which registry
construction rules out). -/
def getFurthestChild (store : List UIComponent) (cid : Nat) : Option Nat :=
  let c := storeGet store cid
  if c.children.length = 0 then some cid
  else (c.children.foldl (furthestStep store cid) (none, -1)).1

/-- The parents walk of utils.getFileInUiComponent: the first parent directory
(nearest to furthest) containing the file wins. -/
def walkParentsForFile (fs : FileSys) (store : List UIComponent) (rel : String) :
    List Nat → Option String
  | [] => none
  | pid :: rest =>
      let p := (storeGet store pid).path ++ rel
      if fs.fileExists p then some p else walkParentsForFile fs store rel rest

/-- utils.getFileInUiComponent: normalise the relative path to a leading
slash, resolve the furthest child, try its directory, then walk its parents
nearest-to-furthest; none models the null result.  The none branch of the
furthest child models the source dereferencing null, unreachable for registry
components. -/
def getFileInUiComponent (fs : FileSys) (store : List UIComponent) (cid : Nat)
    (relativeFilePath : String) : Option String :=
  let rel := if relativeFilePath.startsWith "/" then relativeFilePath else "/" ++ relativeFilePath
  match getFurthestChild store cid with
  | none => none
  | some childId =>
      let childC := storeGet store childId
      if fs.fileExists (childC.path ++ rel) then some (childC.path ++ rel)
      else walkParentsForFile fs store rel childC.parents

/-- Definition following the spec's words (§4.5): the effective override file
is searched in the furthest descendant's directory first, then along that
descendant's parents nearest-to-furthest; the first existing file wins and
absence everywhere is "not found". -/
def resolveFileSpec (fs : FileSys) (store : List UIComponent) (cid : Nat) (rel0 : String) :
    Option String :=
  let rel := if rel0.startsWith "/" then rel0 else "/" ++ rel0
  match getFurthestChild store cid with
  | none => none
  | some childId =>
      ((childId :: (storeGet store childId).parents).map
        (fun i => (storeGet store i).path ++ rel)).find? fs.fileExists

/-- Whether an Except result is a success. -/
def exceptOk {α : Type} : Except String α → Bool
  | .ok _ => true
  | .error _ => false

/-- The full names of a registry's ordered list, in list order. -/
def regNames (reg : Registry) : List String :=
  reg.list.map (fun i => (storeGet reg.store i).fullName)

/-- The merged definition document a lookup-table component reference points to. -/
def refDefinition (t : LookupTable) : CompRef → List (String × JVal)
  | CompRef.div i => (storeGet t.divStore i).definition
  | CompRef.page i => (storeGet t.pageStore i).definition

/-- The div discovery list of a filesystem in discovery (insertion) order,
before inheritance chaining and sorting. -/
def discoveryNamesDivs (fs : FileSys) : Except String (List String) :=
  (populateAll fs "div" DIRECTORY_APP_DIVS).map regNames

/-- The empty registry every discovery pass starts from. -/
def emptyReg : Registry := { store := [], map := [], list := [] }

/-- Builds a concrete component object for test inputs (the type tag and path
are irrelevant to the properties exercised). -/
def mkComp (fullName : String) (definition : List (String × JVal)) (parents : List Nat)
    (children : List JsElem) : UIComponent :=
  { fullName := fullName
    shortName := strDropJs fullName (jsLastIndexOfDot fullName + 1).toNat
    path := "/app/components/col/divs/" ++ fullName
    type := "div"
    templateFilePath := none
    scriptFilePath := none
    definition := definition
    parents := parents
    children := children
    disabled := false
    index := none }

/-- Test input: a parent component with priority 5 whose children array holds
the object reference of its child (as the inheritance resolver builds it). -/
def c2Parent : UIComponent :=
  mkComp "aaa.parent"
    [("version", JVal.prim (JPrim.str "1")), ("index", JVal.prim (JPrim.num 5))]
    [] [JsElem.ref 1]

/-- Test input: a child component declaring the same priority 5 and extending
the parent. -/
def c2Child : UIComponent :=
  mkComp "zzz.child"
    [("version", JVal.prim (JPrim.str "1")), ("index", JVal.prim (JPrim.num 5)),
     ("extends", JVal.prim (JPrim.str "aaa.parent"))]
    [0] []

/-- Test input: the two-component store for the priority-tie scenario. -/
def c2Store : List UIComponent := [c2Parent, c2Child]

/-- Test input: component with explicit priority 3. -/
def c5A : UIComponent := mkComp "a.a" [("index", JVal.prim (JPrim.num 3))] [] []

/-- Test input: distinct component with the same explicit priority 3. -/
def c5B : UIComponent := mkComp "b.b" [("index", JVal.prim (JPrim.num 3))] [] []

/-- Test input: component without a declared priority (sentinel). -/
def c5C : UIComponent := mkComp "c.c" [] [] []

/-- Test input: filesystem with one collection holding two divs whose
discovery order (z.b before a.a) differs from their name-sorted order. -/
def c3fs : FileSys :=
  { listFiles := fun p =>
      if p = "/app/components" then [⟨"app1", true⟩]
      else if p = "/app/components/app1/divs" then [⟨"z.b", true⟩, ⟨"a.a", true⟩]
      else []
    fileExists := fun p =>
      (p == "/app/components/app1/divs/z.b/b.json")
        || (p == "/app/components/app1/divs/a.a/a.json")
    defn := fun _ => [("version", JVal.prim (JPrim.str "1"))] }

/-- The registry discovered for the divs of c3fs. -/
def c3DivsData : Registry :=
  match getUiComponentsData c3fs "div" DIRECTORY_APP_DIVS with
  | .ok r => r
  | .error _ => default

/-- The registry discovered for the pages of c3fs. -/
def c3PagesData : Registry :=
  match getUiComponentsData c3fs "page" DIRECTORY_APP_PAGES with
  | .ok r => r
  | .error _ => default

/-- The lookup table built from c3fs. -/
def c3Table : LookupTable :=
  match buildLookupTable c3fs with
  | .ok t => t
  | .error _ => default

/-- Test input: filesystem with two collections both providing a div directory
named a.b. -/
def c4fs : FileSys :=
  { listFiles := fun p =>
      if p = "/app/components" then [⟨"c1", true⟩, ⟨"c2", true⟩]
      else if p = "/app/components/c1/divs" then [⟨"a.b", true⟩]
      else if p = "/app/components/c2/divs" then [⟨"a.b", true⟩]
      else []
    fileExists := fun p =>
      (p == "/app/components/c1/divs/a.b/b.json")
        || (p == "/app/components/c2/divs/a.b/b.json")
    defn := fun _ => [("version", JVal.prim (JPrim.str "1"))] }

/-- The registry populated from the first collection of c3fs alone. -/
def c4wReg : Registry :=
  match populateComponentCollections c3fs "/app/components/app1/divs" "div" emptyReg with
  | .ok r => r
  | .error _ => default

/-- Test input: filesystem with a single div whose definition disables it. -/
def c6fs : FileSys :=
  { listFiles := fun p =>
      if p = "/app/components" then [⟨"app1", true⟩]
      else if p = "/app/components/app1/divs" then [⟨"a.x", true⟩]
      else []
    fileExists := fun p => p == "/app/components/app1/divs/a.x/x.json"
    defn := fun _ =>
      [("version", JVal.prim (JPrim.str "1")), ("disabled", JVal.prim (JPrim.bool true))] }

/-- Test input: filesystem whose only div directory has no definition file, so
every build fails with a missing-definition error. -/
def c8fs : FileSys :=
  { listFiles := fun p =>
      if p = "/app/components" then [⟨"col", true⟩]
      else if p = "/app/components/col/divs" then [⟨"a.bad", true⟩]
      else []
    fileExists := fun _ => false
    defn := fun _ => [] }

/-- Test input: an overridden div (non-empty children) with a valid definition
and a pushed-URIs field, to show none of it is consulted. -/
def c7Div : UIComponent :=
  mkComp "p.d"
    [("version", JVal.prim (JPrim.str "1")),
     ("pushedUris", JVal.arr [JVal.prim (JPrim.str "/app/*")])]
    [] [JsElem.ref 1]

/-- Test input: div-loop state holding the overridden div and its child. -/
def c7DivState : DivLoopState :=
  { store := [c7Div, mkComp "c.d" [] [0] []], allUi := [], pushedDivs := [] }

/-- Test input: an overridden page (non-empty children) with a URI that must
not be registered. -/
def c7Page : UIComponent :=
  mkComp "p.p"
    [("version", JVal.prim (JPrim.str "1")), ("uri", JVal.prim (JPrim.str "/home")),
     ("layout", JVal.prim (JPrim.str "main"))]
    [] [JsElem.ref 1]

/-- Test input: page-loop state holding the overridden page and its child. -/
def c7PageState : PageLoopState :=
  { store := [c7Page, mkComp "c.p" [] [0] []], allUi := [], uriPagesMap := [] }

/-- Test input: a div whose definition sets disabled to the string "1". -/
def c10Div : UIComponent :=
  mkComp "a.x"
    [("version", JVal.prim (JPrim.str "1")), ("disabled", JVal.prim (JPrim.str "1"))]
    [] []

/-- Test input: div-loop state holding the disabled-"1" div. -/
def c10State : DivLoopState := { store := [c10Div], allUi := [], pushedDivs := [] }

/-- Test input: div-loop state with two enabled childless divs for the index
assignment witness. -/
def c3wDivState : DivLoopState :=
  { store := [mkComp "w.a" [("version", JVal.prim (JPrim.str "1"))] [] [],
              mkComp "w.b" [("version", JVal.prim (JPrim.str "1"))] [] []]
    allUi := [], pushedDivs := [] }

/-- The div-loop result on c3wDivState processed in the order 1, 0. -/
def c3wDivRes : DivLoopState :=
  match divLoop 0 [1, 0] c3wDivState with
  | .ok s => s
  | .error _ => default

/-- Test input: page-loop state with one disabled page for the index
assignment witness. -/
def c3wPageState : PageLoopState :=
  { store := [mkComp "w.p" [("version", JVal.prim (JPrim.str "1")),
                            ("disabled", JVal.prim (JPrim.bool true))] [] []]
    allUi := [], uriPagesMap := [] }

/-- The page-loop result on c3wPageState with counter base 2. -/
def c3wPageRes : PageLoopState :=
  match pageLoop [] 2 [0] c3wPageState with
  | .ok s => s
  | .error _ => default

/-- Reading back through a property write: the written key returns the new
value, any other key is unaffected. -/
theorem alistGet_put {α : Type} (l : List (String × α)) (k : String) (v : α) (n : String) :
    alistGet (alistPut l k v) n = if k = n then some v else alistGet l n := by
  induction l with
  | nil => simp [alistPut, alistGet]
  | cons hd t ih =>
      obtain ⟨k0, v0⟩ := hd
      by_cases h0 : k0 = k
      · subst h0
        by_cases hn : k0 = n
        · subst hn; simp [alistPut, alistGet]
        · simp [alistPut, alistGet, hn]
      · have e : alistPut ((k0, v0) :: t) k v = (k0, v0) :: alistPut t k v := by
          simp [alistPut, h0]
        by_cases hn : k0 = n
        · subst hn
          have hkn : k ≠ k0 := fun h => h0 h.symm
          simp [e, alistGet, hkn]
        · simp [e, alistGet, hn, ih]

/-- A key reads as undefined exactly when it is bound nowhere in the object. -/
theorem alistGet_eq_none_iff {α : Type} (l : List (String × α)) (k : String) :
    alistGet l k = none ↔ k ∉ l.map Prod.fst := by
  induction l with
  | nil => simp [alistGet]
  | cons hd t ih =>
      obtain ⟨k0, v0⟩ := hd
      by_cases hk : k0 = k
      · subst hk; simp [alistGet]
      · have e : alistGet ((k0, v0) :: t) k = alistGet t k := by simp [alistGet, hk]
        rw [e, ih]
        simp only [List.map_cons, List.mem_cons, not_or]
        constructor
        · intro h; exact ⟨fun h2 => hk h2.symm, h⟩
        · intro h; exact h.2

/-- The keys after a property write are the old keys plus possibly the new one. -/
theorem mem_keys_alistPut {α : Type} (l : List (String × α)) (k : String) (v : α) (x : String) :
    x ∈ (alistPut l k v).map Prod.fst ↔ x ∈ l.map Prod.fst ∨ x = k := by
  induction l with
  | nil => simp [alistPut]
  | cons hd t ih =>
      obtain ⟨k0, v0⟩ := hd
      by_cases h0 : k0 = k
      · subst h0
        have e : alistPut ((k0, v0) :: t) k0 v = (k0, v) :: t := by simp [alistPut]
        rw [e]
        simp only [List.map_cons, List.mem_cons]
        tauto
      · have e : alistPut ((k0, v0) :: t) k v = (k0, v0) :: alistPut t k v := by
          simp [alistPut, h0]
        rw [e]
        simp only [List.map_cons, List.mem_cons, ih]
        tauto

/-- A property write never introduces a duplicate key. -/
theorem alistPut_keys_nodup {α : Type} (l : List (String × α)) (k : String) (v : α)
    (h : (l.map Prod.fst).Nodup) : ((alistPut l k v).map Prod.fst).Nodup := by
  induction l with
  | nil => simp [alistPut]
  | cons hd t ih =>
      obtain ⟨k0, v0⟩ := hd
      simp only [List.map_cons, List.nodup_cons] at h
      obtain ⟨hmem, hnd⟩ := h
      by_cases h0 : k0 = k
      · subst h0
        have e : alistPut ((k0, v0) :: t) k0 v = (k0, v) :: t := by simp [alistPut]
        rw [e]
        simp only [List.map_cons, List.nodup_cons]
        exact ⟨hmem, hnd⟩
      · have e : alistPut ((k0, v0) :: t) k v = (k0, v0) :: alistPut t k v := by
          simp [alistPut, h0]
        rw [e]
        simp only [List.map_cons, List.nodup_cons]
        refine ⟨?_, ih hnd⟩
        rw [mem_keys_alistPut]
        rintro (h | h)
        · exact hmem h
        · exact h0 h

/-- Updating a store slot preserves the store's length. -/
theorem length_lset {α : Type} (l : List α) (i : Nat) (v : α) : (lset l i v).length = l.length := by
  induction l generalizing i with
  | nil => rfl
  | cons x xs ih =>
      cases i with
      | zero => rfl
      | succ n => simp [lset, ih]

/-- Reading the slot just written (within bounds) yields the new value. -/
theorem getD_lset_self {α : Type} (l : List α) (i : Nat) (v d : α) (h : i < l.length) :
    (lset l i v).getD i d = v := by
  induction l generalizing i with
  | nil => simp at h
  | cons x xs ih =>
      cases i with
      | zero => rfl
      | succ n =>
          simp only [lset, List.getD_cons_succ]
          exact ih n (by simpa using h)

/-- Reading a different slot is unaffected by a store write. -/
theorem getD_lset_ne {α : Type} (l : List α) (i j : Nat) (v d : α) (h : i ≠ j) :
    (lset l i v).getD j d = l.getD j d := by
  induction l generalizing i j with
  | nil => rfl
  | cons x xs ih =>
      cases i with
      | zero =>
          cases j with
          | zero => exact absurd rfl h
          | succ m => rfl
      | succ n =>
          cases j with
          | zero => rfl
          | succ m =>
              simp only [lset, List.getD_cons_succ]
              exact ih n m (by omega)

/-- An out-of-bounds store write is a no-op. -/
theorem lset_oob {α : Type} (l : List α) (i : Nat) (v : α) (h : l.length ≤ i) :
    lset l i v = l := by
  induction l generalizing i with
  | nil => rfl
  | cons x xs ih =>
      cases i with
      | zero => simp at h
      | succ n => simp [lset, ih n (by simpa using h)]

/-- Characterisation of reading any slot after a store write. -/
theorem storeGet_lset (store : List UIComponent) (i j : Nat) (v : UIComponent) :
    storeGet (lset store i v) j = if i = j ∧ i < store.length then v else storeGet store j := by
  by_cases hij : i = j
  · subst hij
    by_cases hlt : i < store.length
    · rw [if_pos ⟨rfl, hlt⟩]
      exact getD_lset_self store i v default hlt
    · rw [if_neg (fun h => hlt h.2), lset_oob store i v (by omega)]
  · rw [if_neg (fun h => hij h.1)]
    exact getD_lset_ne store i j v default hij

/-- Extending past keys the parent does not own leaves the child's binding for
those keys untouched. -/
theorem extendFields_get_not_mem (parent : List (String × JVal)) (child : List (String × JVal))
    (k : String) (hk : k ∉ parent.map Prod.fst) :
    alistGet (extendFields child parent) k = alistGet child k := by
  induction parent generalizing child with
  | nil => rfl
  | cons hd rest ih =>
      obtain ⟨k0, v⟩ := hd
      simp only [List.map_cons, List.mem_cons] at hk
      push_neg at hk
      obtain ⟨hk0, hkrest⟩ := hk
      have hk0n : k0 ≠ k := fun e => hk0 e.symm
      cases v with
      | arr xs =>
          have e : extendFields child ((k0, JVal.arr xs) :: rest)
              = extendFields (alistPut child k0 (JVal.arr xs)) rest := rfl
          rw [e, ih _ hkrest, alistGet_put, if_neg hk0n]
      | obj pfs =>
          have e : extendFields child ((k0, JVal.obj pfs) :: rest)
              = extendFields (alistPut child k0 (extendVal (alistGet child k0) (JVal.obj pfs)))
                  rest := rfl
          rw [e, ih _ hkrest, alistGet_put, if_neg hk0n]
      | prim p =>
          cases p with
          | null =>
              have e : extendFields child ((k0, JVal.prim JPrim.null) :: rest)
                  = extendFields
                      (alistPut child k0 (extendVal (alistGet child k0) (JVal.prim JPrim.null)))
                      rest := rfl
              rw [e, ih _ hkrest, alistGet_put, if_neg hk0n]
          | str s =>
              have e : extendFields child ((k0, JVal.prim (JPrim.str s)) :: rest)
                  = extendFields
                      (if (alistGet child k0).isSome then child
                       else alistPut child k0 (JVal.prim (JPrim.str s))) rest := rfl
              rw [e, ih _ hkrest]
              by_cases hs : (alistGet child k0).isSome
              · simp [hs]
              · simp [hs, alistGet_put, hk0n]
          | num n =>
              have e : extendFields child ((k0, JVal.prim (JPrim.num n)) :: rest)
                  = extendFields
                      (if (alistGet child k0).isSome then child
                       else alistPut child k0 (JVal.prim (JPrim.num n))) rest := rfl
              rw [e, ih _ hkrest]
              by_cases hs : (alistGet child k0).isSome
              · simp [hs]
              · simp [hs, alistGet_put, hk0n]
          | bool b =>
              have e : extendFields child ((k0, JVal.prim (JPrim.bool b)) :: rest)
                  = extendFields
                      (if (alistGet child k0).isSome then child
                       else alistPut child k0 (JVal.prim (JPrim.bool b))) rest := rfl
              rw [e, ih _ hkrest]
              by_cases hs : (alistGet child k0).isSome
              · simp [hs]
              · simp [hs, alistGet_put, hk0n]

/-- A sequence bound in the parent definition always ends up in the merged
definition, replacing whatever the child bound at that key. -/
theorem extendFields_parent_arr (parent : List (String × JVal)) (child : List (String × JVal))
    (k : String) (xs : List JVal) (hnd : (parent.map Prod.fst).Nodup)
    (hget : alistGet parent k = some (JVal.arr xs)) :
    alistGet (extendFields child parent) k = some (JVal.arr xs) := by
  induction parent generalizing child with
  | nil => simp [alistGet] at hget
  | cons hd rest ih =>
      obtain ⟨k0, v⟩ := hd
      simp only [List.map_cons, List.nodup_cons] at hnd
      obtain ⟨hk0nmem, hndrest⟩ := hnd
      by_cases hk : k0 = k
      · subst hk
        have hv : v = JVal.arr xs := by
          have := hget
          simp [alistGet] at this
          exact this
        subst hv
        have e : extendFields child ((k0, JVal.arr xs) :: rest)
            = extendFields (alistPut child k0 (JVal.arr xs)) rest := rfl
        rw [e, extendFields_get_not_mem rest _ k0 hk0nmem, alistGet_put, if_pos rfl]
      · have hget2 : alistGet rest k = some (JVal.arr xs) := by
          simpa [alistGet, hk] using hget
        cases v with
        | arr ys =>
            have e : extendFields child ((k0, JVal.arr ys) :: rest)
                = extendFields (alistPut child k0 (JVal.arr ys)) rest := rfl
            rw [e]; exact ih _ hndrest hget2
        | obj pfs =>
            have e : extendFields child ((k0, JVal.obj pfs) :: rest)
                = extendFields (alistPut child k0 (extendVal (alistGet child k0) (JVal.obj pfs)))
                    rest := rfl
            rw [e]; exact ih _ hndrest hget2
        | prim p =>
            cases p with
            | null =>
                have e : extendFields child ((k0, JVal.prim JPrim.null) :: rest)
                    = extendFields
                        (alistPut child k0 (extendVal (alistGet child k0) (JVal.prim JPrim.null)))
                        rest := rfl
                rw [e]; exact ih _ hndrest hget2
            | str s =>
                have e : extendFields child ((k0, JVal.prim (JPrim.str s)) :: rest)
                    = extendFields
                        (if (alistGet child k0).isSome then child
                         else alistPut child k0 (JVal.prim (JPrim.str s))) rest := rfl
                rw [e]; exact ih _ hndrest hget2
            | num n =>
                have e : extendFields child ((k0, JVal.prim (JPrim.num n)) :: rest)
                    = extendFields
                        (if (alistGet child k0).isSome then child
                         else alistPut child k0 (JVal.prim (JPrim.num n))) rest := rfl
                rw [e]; exact ih _ hndrest hget2
            | bool b =>
                have e : extendFields child ((k0, JVal.prim (JPrim.bool b)) :: rest)
                    = extendFields
                        (if (alistGet child k0).isSome then child
                         else alistPut child k0 (JVal.prim (JPrim.bool b))) rest := rfl
                rw [e]; exact ih _ hndrest hget2

/-- C1 counterexample: the claim says a child-defined sequence is kept
unchanged and never replaced by the parent's sequence; but extending a child
binding the sequence [1] at field f from a parent binding [2] there yields the
parent's sequence [2], not the child's. -/
theorem c1_counterexample :
    extend [("f", JVal.arr [JVal.prim (JPrim.num 1)])] [("f", JVal.arr [JVal.prim (JPrim.num 2)])]
      = [("f", JVal.arr [JVal.prim (JPrim.num 2)])]
    ∧ JVal.arr [JVal.prim (JPrim.num 2)] ≠ JVal.arr [JVal.prim (JPrim.num 1)] :=
  ⟨rfl, by simp⟩

/-- A child-owned binding survives a parent that binds a non-null scalar at
the same key: the scalar branch of extend copies the parent's value only when
the child does not own the key. -/
theorem extendFields_parent_scalar (parent : List (String × JVal))
    (child : List (String × JVal)) (k : String) (p : JPrim) (hp : p ≠ JPrim.null)
    (hnd : (parent.map Prod.fst).Nodup) (hget : alistGet parent k = some (JVal.prim p))
    (hsome : (alistGet child k).isSome = true) :
    alistGet (extendFields child parent) k = alistGet child k := by
  induction parent generalizing child with
  | nil => rfl
  | cons hd rest ih =>
      obtain ⟨k0, v⟩ := hd
      simp only [List.map_cons, List.nodup_cons] at hnd
      obtain ⟨hk0nmem, hndrest⟩ := hnd
      by_cases hk : k0 = k
      · subst hk
        have hv : v = JVal.prim p := by
          simpa [alistGet] using hget
        subst hv
        cases p with
        | null => exact absurd rfl hp
        | str sv =>
            have e : extendFields child ((k0, JVal.prim (JPrim.str sv)) :: rest)
                = extendFields
                    (if (alistGet child k0).isSome then child
                     else alistPut child k0 (JVal.prim (JPrim.str sv))) rest := rfl
            rw [e, if_pos hsome, extendFields_get_not_mem rest _ k0 hk0nmem]
        | num nv =>
            have e : extendFields child ((k0, JVal.prim (JPrim.num nv)) :: rest)
                = extendFields
                    (if (alistGet child k0).isSome then child
                     else alistPut child k0 (JVal.prim (JPrim.num nv))) rest := rfl
            rw [e, if_pos hsome, extendFields_get_not_mem rest _ k0 hk0nmem]
        | bool bv =>
            have e : extendFields child ((k0, JVal.prim (JPrim.bool bv)) :: rest)
                = extendFields
                    (if (alistGet child k0).isSome then child
                     else alistPut child k0 (JVal.prim (JPrim.bool bv))) rest := rfl
            rw [e, if_pos hsome, extendFields_get_not_mem rest _ k0 hk0nmem]
      · have hget2 : alistGet rest k = some (JVal.prim p) := by
          simpa [alistGet, hk] using hget
        cases v with
        | arr ys =>
            have e : extendFields child ((k0, JVal.arr ys) :: rest)
                = extendFields (alistPut child k0 (JVal.arr ys)) rest := rfl
            have hpres : alistGet (alistPut child k0 (JVal.arr ys)) k = alistGet child k := by
              rw [alistGet_put, if_neg hk]
            rw [e, ih _ hndrest hget2 (by rw [hpres]; exact hsome), hpres]
        | obj pfs =>
            have e : extendFields child ((k0, JVal.obj pfs) :: rest)
                = extendFields (alistPut child k0 (extendVal (alistGet child k0) (JVal.obj pfs)))
                    rest := rfl
            have hpres : alistGet (alistPut child k0
                (extendVal (alistGet child k0) (JVal.obj pfs))) k = alistGet child k := by
              rw [alistGet_put, if_neg hk]
            rw [e, ih _ hndrest hget2 (by rw [hpres]; exact hsome), hpres]
        | prim p2 =>
            cases p2 with
            | null =>
                have e : extendFields child ((k0, JVal.prim JPrim.null) :: rest)
                    = extendFields
                        (alistPut child k0 (extendVal (alistGet child k0) (JVal.prim JPrim.null)))
                        rest := rfl
                have hpres : alistGet (alistPut child k0
                    (extendVal (alistGet child k0) (JVal.prim JPrim.null))) k
                      = alistGet child k := by
                  rw [alistGet_put, if_neg hk]
                rw [e, ih _ hndrest hget2 (by rw [hpres]; exact hsome), hpres]
            | str sv =>
                have e : extendFields child ((k0, JVal.prim (JPrim.str sv)) :: rest)
                    = extendFields
                        (if (alistGet child k0).isSome then child
                         else alistPut child k0 (JVal.prim (JPrim.str sv))) rest := rfl
                rw [e]
                by_cases hs : (alistGet child k0).isSome
                · rw [if_pos hs]
                  exact ih _ hndrest hget2 hsome
                · rw [if_neg hs]
                  have hpres : alistGet (alistPut child k0 (JVal.prim (JPrim.str sv))) k
                      = alistGet child k := by
                    rw [alistGet_put, if_neg hk]
                  rw [ih _ hndrest hget2 (by rw [hpres]; exact hsome), hpres]
            | num nv =>
                have e : extendFields child ((k0, JVal.prim (JPrim.num nv)) :: rest)
                    = extendFields
                        (if (alistGet child k0).isSome then child
                         else alistPut child k0 (JVal.prim (JPrim.num nv))) rest := rfl
                rw [e]
                by_cases hs : (alistGet child k0).isSome
                · rw [if_pos hs]
                  exact ih _ hndrest hget2 hsome
                · rw [if_neg hs]
                  have hpres : alistGet (alistPut child k0 (JVal.prim (JPrim.num nv))) k
                      = alistGet child k := by
                    rw [alistGet_put, if_neg hk]
                  rw [ih _ hndrest hget2 (by rw [hpres]; exact hsome), hpres]
            | bool bv =>
                have e : extendFields child ((k0, JVal.prim (JPrim.bool bv)) :: rest)
                    = extendFields
                        (if (alistGet child k0).isSome then child
                         else alistPut child k0 (JVal.prim (JPrim.bool bv))) rest := rfl
                rw [e]
                by_cases hs : (alistGet child k0).isSome
                · rw [if_pos hs]
                  exact ih _ hndrest hget2 hsome
                · rw [if_neg hs]
                  have hpres : alistGet (alistPut child k0 (JVal.prim (JPrim.bool bv))) k
                      = alistGet child k := by
                    rw [alistGet_put, if_neg hk]
                  rw [ih _ hndrest hget2 (by rw [hpres]; exact hsome), hpres]

/-- C1 (amended): in the inheritance merge, a sequence-valued field of the
PARENT is authoritative: whenever the parent's definition binds a sequence at
a field, the merged definition holds the parent's sequence there, replacing
any child value; the child's binding at a field survives unchanged when the
parent does not bind that field, and a child-owned binding also survives a
parent that binds a non-null scalar at that field. -/
theorem c1_extend_sequences (child parent : List (String × JVal)) (k : String)
    (hnd : (parent.map Prod.fst).Nodup) :
    (∀ xs, alistGet parent k = some (JVal.arr xs) →
       alistGet (extend child parent) k = some (JVal.arr xs))
    ∧ (alistGet parent k = none → alistGet (extend child parent) k = alistGet child k)
    ∧ (∀ p : JPrim, p ≠ JPrim.null → alistGet parent k = some (JVal.prim p) →
       (alistGet child k).isSome = true →
       alistGet (extend child parent) k = alistGet child k) :=
  ⟨fun xs h => extendFields_parent_arr parent child k xs hnd h,
   fun h => extendFields_get_not_mem parent child k ((alistGet_eq_none_iff parent k).mp h),
   fun p hp h hsome => extendFields_parent_scalar parent child k p hp hnd h hsome⟩

/-- C1 witness: concrete runs of the amended theorem — the parent's empty
sequence at f replaces the child's; the child's binding at h survives a
parent that does not bind h; and the child's binding at h also survives a
parent that binds the scalar string x at h. -/
theorem c1_extend_sequences_witness :
    alistGet (extend [("f", JVal.arr [JVal.prim (JPrim.num 7)])]
        [("f", JVal.arr []), ("g", JVal.prim (JPrim.num 3))]) "f" = some (JVal.arr [])
    ∧ alistGet (extend [("h", JVal.prim (JPrim.num 9))]
        [("f", JVal.arr []), ("g", JVal.prim (JPrim.num 3))]) "h"
      = alistGet [("h", JVal.prim (JPrim.num 9))] "h"
    ∧ JPrim.str "x" ≠ JPrim.null
    ∧ (alistGet [("h", JVal.prim (JPrim.num 9))] "h").isSome = true
    ∧ alistGet (extend [("h", JVal.prim (JPrim.num 9))]
        [("h", JVal.prim (JPrim.str "x")), ("g", JVal.prim (JPrim.num 3))]) "h"
      = alistGet [("h", JVal.prim (JPrim.num 9))] "h" :=
  ⟨(c1_extend_sequences [("f", JVal.arr [JVal.prim (JPrim.num 7)])]
      [("f", JVal.arr []), ("g", JVal.prim (JPrim.num 3))] "f" (by decide)).1 [] rfl,
   (c1_extend_sequences [("h", JVal.prim (JPrim.num 9))]
      [("f", JVal.arr []), ("g", JVal.prim (JPrim.num 3))] "h" (by decide)).2.1 rfl,
   by simp,
   rfl,
   (c1_extend_sequences [("h", JVal.prim (JPrim.num 9))]
      [("h", JVal.prim (JPrim.str "x")), ("g", JVal.prim (JPrim.num 3))] "h"
      (by decide)).2.2 (JPrim.str "x") (by simp) rfl rfl⟩

/-- Two code-point-equal characters are equal. -/
theorem char_eq_of_toNat_eq (a b : Char) (h : a.toNat = b.toNat) : a = b :=
  Char.eq_of_val_eq (UInt32.eq_of_val_eq (Fin.ext h))

/-- A zero lexicographic comparison forces list equality. -/
theorem charListCompare_eq_zero (as bs : List Char) (h : charListCompare as bs = 0) : as = bs := by
  induction as generalizing bs with
  | nil =>
      cases bs with
      | nil => rfl
      | cons b u => simp [charListCompare] at h
  | cons a t ih =>
      cases bs with
      | nil => simp [charListCompare] at h
      | cons b u =>
          simp only [charListCompare] at h
          split_ifs at h with h1 h2
          · exact absurd h (by norm_num)
          · have hab : a = b := char_eq_of_toNat_eq a b (by omega)
            rw [hab, ih u h]

/-- The lexicographic comparison is antisymmetric in sign. -/
theorem charListCompare_antisymm (as bs : List Char) :
    charListCompare as bs = -charListCompare bs as := by
  induction as generalizing bs with
  | nil => cases bs <;> simp [charListCompare]
  | cons a t ih =>
      cases bs with
      | nil => simp [charListCompare]
      | cons b u =>
          simp only [charListCompare]
          rcases Nat.lt_trichotomy a.toNat b.toNat with h | h | h
          · rw [if_pos h, if_neg (by omega : ¬ b.toNat < a.toNat), if_pos h]
          · rw [if_neg (by omega : ¬ a.toNat < b.toNat), if_neg (by omega : ¬ b.toNat < a.toNat),
                if_neg (by omega : ¬ b.toNat < a.toNat), if_neg (by omega : ¬ a.toNat < b.toNat)]
            exact ih u
          · rw [if_neg (by omega : ¬ a.toNat < b.toNat), if_pos h, if_pos h]
            try norm_num

/-- The lexicographic comparison is transitive on strictly-smaller results. -/
theorem charListCompare_trans (as bs cs : List Char) (h1 : charListCompare as bs = -1)
    (h2 : charListCompare bs cs = -1) : charListCompare as cs = -1 := by
  induction as generalizing bs cs with
  | nil =>
      cases bs with
      | nil => simp [charListCompare] at h1
      | cons b u =>
          cases cs with
          | nil => simp [charListCompare] at h2
          | cons c v => rfl
  | cons a t ih =>
      cases bs with
      | nil => simp [charListCompare] at h1
      | cons b u =>
          cases cs with
          | nil => simp [charListCompare] at h2
          | cons c v =>
              simp only [charListCompare] at h1 h2 ⊢
              split_ifs at h1 with hab1 hab2
              · split_ifs at h2 with hbc1 hbc2
                · rw [if_pos (by omega : a.toNat < c.toNat)]
                · rw [if_pos (by omega : a.toNat < c.toNat)]
              · split_ifs at h2 with hbc1 hbc2
                · rw [if_pos (by omega : a.toNat < c.toNat)]
                · rw [if_neg (by omega : ¬ a.toNat < c.toNat),
                      if_neg (by omega : ¬ c.toNat < a.toNat)]
                  exact ih u v h1 h2

/-- A lexicographic comparison always yields -1, 0 or 1. -/
theorem charListCompare_mem (as bs : List Char) :
    charListCompare as bs = -1 ∨ charListCompare as bs = 0 ∨ charListCompare as bs = 1 := by
  induction as generalizing bs with
  | nil => cases bs <;> simp [charListCompare]
  | cons a t ih =>
      cases bs with
      | nil => simp [charListCompare]
      | cons b u =>
          simp only [charListCompare]
          split_ifs with h1 h2
          · simp
          · simp
          · exact ih u

/-- A zero result of the name comparison forces name equality. -/
theorem strCompare_eq_zero (a b : String) (h : strCompare a b = 0) : a = b := by
  unfold strCompare at h
  have e := charListCompare_eq_zero a.toList b.toList h
  cases a
  cases b
  exact congrArg String.mk (by simpa using e)

/-- The name comparison is antisymmetric in sign. -/
theorem strCompare_antisymm (a b : String) : strCompare a b = -strCompare b a :=
  charListCompare_antisymm a.toList b.toList

/-- The name comparison is transitive on strictly-smaller results. -/
theorem strCompare_trans (a b c : String) (h1 : strCompare a b = -1) (h2 : strCompare b c = -1) :
    strCompare a c = -1 :=
  charListCompare_trans a.toList b.toList c.toList h1 h2

/-- A children array that holds only object references never contains a
full-name string, so the comparator's indexOf search fails. -/
theorem jsIndexOfAux_refs (l : List JsElem) (n : String)
    (h : ∀ e ∈ l, e.isRef = true) : jsIndexOfAux l (JsElem.str n) = none := by
  induction l with
  | nil => rfl
  | cons e t ih =>
      have he := h e (by simp)
      have ht : ∀ x ∈ t, x.isRef = true := fun x hx => h x (by simp [hx])
      cases e with
      | ref i => simp [jsIndexOfAux, jsElemBeq, ih ht]
      | str s => simp [JsElem.isRef] at he

/-- Array.indexOf of a full name over a reference-only children array is -1. -/
theorem jsIndexOf_refs (l : List JsElem) (n : String) (h : ∀ e ∈ l, e.isRef = true) :
    jsIndexOf l (JsElem.str n) = -1 := by
  simp [jsIndexOf, jsIndexOfAux_refs l n h]

/-- On components whose children arrays hold only object references (as the
inheritance resolver builds them), the comparator reduces to the priority
order with full-name tie-break: the child-before-parent branches can never
fire because they search the children array for a string. -/
theorem compareRaw_eq (a b : UIComponent)
    (ha : ∀ e ∈ a.children, e.isRef = true) (hb : ∀ e ∈ b.children, e.isRef = true) :
    compareRawUiComponents a b =
      (if effIndex a = effIndex b then strCompare a.fullName b.fullName
       else if effIndex a > effIndex b then 1 else -1) := by
  simp only [compareRawUiComponents]
  by_cases h : effIndex a = effIndex b
  · rw [if_pos h, if_pos h]
    by_cases hs : effIndex a = 1000000
    · rw [if_pos hs]
    · rw [if_neg hs, jsIndexOf_refs _ _ ha, jsIndexOf_refs _ _ hb]
      norm_num
  · rw [if_neg h, if_neg h]

/-- C5: on components whose children arrays hold object references (the
registry invariant), the Ordering Engine comparator is a strict total order:
every comparison is -1, 0 or 1; the sign is antisymmetric; 0 is returned only
for equal full names; -1 is transitive; and comparing equal components gives
the same result against any third component. -/
theorem c5_comparator_strict_total_order (a b c : UIComponent)
    (ha : ∀ e ∈ a.children, e.isRef = true) (hb : ∀ e ∈ b.children, e.isRef = true)
    (hc : ∀ e ∈ c.children, e.isRef = true) :
    (compareRawUiComponents a b = -1 ∨ compareRawUiComponents a b = 0
        ∨ compareRawUiComponents a b = 1)
    ∧ compareRawUiComponents a b = -compareRawUiComponents b a
    ∧ (compareRawUiComponents a b = 0 → a.fullName = b.fullName)
    ∧ (compareRawUiComponents a b = -1 → compareRawUiComponents b c = -1 →
        compareRawUiComponents a c = -1)
    ∧ (compareRawUiComponents a b = 0 →
        compareRawUiComponents b c = compareRawUiComponents a c) := by
  rw [compareRaw_eq a b ha hb, compareRaw_eq b a hb ha, compareRaw_eq b c hb hc,
      compareRaw_eq a c ha hc]
  refine ⟨?_, ?_, ?_, ?_, ?_⟩
  · by_cases h : effIndex a = effIndex b
    · rw [if_pos h]
      exact charListCompare_mem _ _
    · rw [if_neg h]
      split_ifs <;> simp
  · by_cases h : effIndex a = effIndex b
    · rw [if_pos h, if_pos h.symm]
      exact strCompare_antisymm _ _
    · have h2 : ¬ effIndex b = effIndex a := fun e => h e.symm
      rw [if_neg h, if_neg h2]
      rcases lt_or_gt_of_ne h with hlt | hgt
      · rw [if_neg (by omega : ¬ effIndex a > effIndex b),
            if_pos (by omega : effIndex b > effIndex a)]
      · rw [if_pos (by omega : effIndex a > effIndex b),
            if_neg (by omega : ¬ effIndex b > effIndex a)]
        norm_num
  · by_cases h : effIndex a = effIndex b
    · rw [if_pos h]
      exact fun h0 => strCompare_eq_zero _ _ h0
    · rw [if_neg h]
      split_ifs <;> intro h0 <;> exact absurd h0 (by norm_num)
  · by_cases hab : effIndex a = effIndex b <;> by_cases hbc : effIndex b = effIndex c
    · have hac : effIndex a = effIndex c := hab.trans hbc
      rw [if_pos hab, if_pos hbc, if_pos hac]
      exact strCompare_trans _ _ _
    · have hac : ¬ effIndex a = effIndex c := fun e => hbc (hab.symm.trans e)
      rw [if_pos hab, if_neg hbc, if_neg hac]
      intro _ h2
      split_ifs at h2 with hg
      rw [if_neg (by omega : ¬ effIndex a > effIndex c)]
    · have hac : ¬ effIndex a = effIndex c := fun e => hab (e.trans hbc.symm)
      rw [if_neg hab, if_pos hbc, if_neg hac]
      intro h1 _
      split_ifs at h1 with hg
      rw [if_neg (by omega : ¬ effIndex a > effIndex c)]
    · rw [if_neg hab, if_neg hbc]
      intro h1 h2
      split_ifs at h1 with hg1
      split_ifs at h2 with hg2
      rw [if_neg (by omega : ¬ effIndex a = effIndex c),
          if_neg (by omega : ¬ effIndex a > effIndex c)]
  · by_cases hab : effIndex a = effIndex b
    · rw [if_pos hab]
      intro h0
      have hnames := strCompare_eq_zero _ _ h0
      rw [← hab, ← hnames]
    · rw [if_neg hab]
      split_ifs <;> intro h0 <;> exact absurd h0 (by norm_num)

/-- C5 witness: the strict-total-order theorem applied to three concrete
components (two sharing the explicit priority 3, one without a priority). -/
theorem c5_comparator_witness :
    (∀ e ∈ c5A.children, e.isRef = true)
    ∧ ((compareRawUiComponents c5A c5B = -1 ∨ compareRawUiComponents c5A c5B = 0
          ∨ compareRawUiComponents c5A c5B = 1)
       ∧ compareRawUiComponents c5A c5B = -compareRawUiComponents c5B c5A
       ∧ (compareRawUiComponents c5A c5B = 0 → c5A.fullName = c5B.fullName)
       ∧ (compareRawUiComponents c5A c5B = -1 → compareRawUiComponents c5B c5C = -1 →
           compareRawUiComponents c5A c5C = -1)
       ∧ (compareRawUiComponents c5A c5B = 0 →
           compareRawUiComponents c5B c5C = compareRawUiComponents c5A c5C)) :=
  ⟨by simp [c5A, mkComp], c5_comparator_strict_total_order c5A c5B c5C
    (by simp [c5A, mkComp]) (by simp [c5B, mkComp]) (by simp [c5C, mkComp])⟩

/-- C2: evaluation at the failing input.  c2Child extends c2Parent (the parent
records the child's object reference in its children array) and both declare
priority 5, yet the comparator returns -1 (parent sorts before child) because
its indexOf search compares the full-name string against object references
and never finds it; the spec and the source's own comments require the child
to sort strictly before the parent (a result of 1 here). -/
theorem c2_failing_input_eval :
    compareRawUiComponents c2Parent c2Child = -1
    ∧ jsIndexOf c2Parent.children (JsElem.str c2Child.fullName) = -1
    ∧ c2Parent.children = [JsElem.ref 1]
    ∧ (storeGet c2Store 1).fullName = c2Child.fullName
    ∧ effIndex c2Parent = 5 ∧ effIndex c2Child = 5 :=
  ⟨rfl, rfl, rfl, rfl, rfl, rfl⟩

/-- The parents walk of the file resolver is the first-hit search over the
parent directories in sequence order. -/
theorem walk_eq_find (fs : FileSys) (store : List UIComponent) (rel : String) (l : List Nat) :
    walkParentsForFile fs store rel l
      = (l.map (fun i => (storeGet store i).path ++ rel)).find? fs.fileExists := by
  induction l with
  | nil => rfl
  | cons p rest ih =>
      by_cases h : fs.fileExists ((storeGet store p).path ++ rel)
      · simp [walkParentsForFile, List.find?, h]
      · simp [walkParentsForFile, List.find?, h, ih]

/-- C9: per-component file resolution equals the specified search: the file
from the furthest descendant's directory when it exists there, otherwise the
first existing file along that descendant's parents nearest-to-furthest, and
"not found" when no directory in the chain has the file. -/
theorem c9_file_resolution (fs : FileSys) (store : List UIComponent) (cid : Nat) (rel : String) :
    getFileInUiComponent fs store cid rel = resolveFileSpec fs store cid rel := by
  unfold getFileInUiComponent resolveFileSpec
  cases h : getFurthestChild store cid with
  | none => rfl
  | some childId =>
      simp only [List.map_cons, List.find?]
      by_cases hex : fs.fileExists ((storeGet store childId).path
          ++ (if rel.startsWith "/" then rel else "/" ++ rel))
      · simp [hex, walk_eq_find]
      · simp [hex, walk_eq_find]

/-- C10: the boolean coercion on the disabled field maps booleans to
themselves, numbers to positivity, strings to true exactly for lower-cased
"true" or "yes", null and undefined to the supplied default (false when
absent), any other non-null value to true; consequently a component whose
definition sets disabled to the string "1" (or "disabled") parses as enabled
and is registered by the div loop. -/
theorem c10_parseBoolean_spec :
    (∀ b d, parseBoolean (some (JVal.prim (JPrim.bool b))) d = b)
    ∧ (∀ n d, parseBoolean (some (JVal.prim (JPrim.num n))) d = decide (0 < n))
    ∧ (∀ s d, parseBoolean (some (JVal.prim (JPrim.str s))) d =
        ((strToLowerJs s == "true") || (strToLowerJs s == "yes")))
    ∧ (∀ d, parseBoolean none d = d.getD false)
    ∧ (∀ d, parseBoolean (some (JVal.prim JPrim.null)) d = d.getD false)
    ∧ (∀ xs d, parseBoolean (some (JVal.arr xs)) d = true)
    ∧ (∀ fields d, parseBoolean (some (JVal.obj fields)) d = true)
    ∧ parseBoolean (some (JVal.prim (JPrim.str "1"))) none = false
    ∧ parseBoolean (some (JVal.prim (JPrim.str "disabled"))) none = false
    ∧ (match divStep 0 c10State 0 with
       | .ok s => (alistGet s.allUi "a.x").isSome
       | .error _ => false) = true :=
  ⟨fun _ _ => rfl, fun _ _ => rfl, fun _ _ => rfl, fun _ => rfl, fun _ => rfl,
   fun _ _ => rfl, fun _ _ => rfl, rfl, rfl, rfl⟩

/-- C8: a registry build that raises any error performs no cache write — the
process-wide lookup-table cache slot after the failed call is exactly what it
was before (the unconditional cache write sits after every failure point). -/
theorem c8_no_cache_write_on_error (configs : List (String × JVal)) (fs : FileSys)
    (cache : Option LookupTable) (m : String)
    (h : (getLookupTable configs fs cache).1 = .error m) :
    (getLookupTable configs fs cache).2 = cache := by
  unfold getLookupTable at h ⊢
  cases hC : (if parseBoolean (alistGet configs APP_CONF_CACHE_ENABLED) none then cache
      else none) with
  | some t =>
      simp only [hC] at h
      simp at h
  | none =>
      simp only [hC] at h ⊢
      cases hB : buildLookupTable fs with
      | error me => simp only [hB]
      | ok t =>
          simp only [hB] at h
          simp at h

/-- C8 witness: on a filesystem whose only div lacks its definition file the
build fails with a missing-definition error and the cache slot is unchanged. -/
theorem c8_witness :
    (getLookupTable [] c8fs none).1
        = Except.error "Definition file of div 'a.bad' does not exists."
    ∧ (getLookupTable [] c8fs none).2 = none :=
  ⟨rfl, c8_no_cache_write_on_error [] c8fs none
      "Definition file of div 'a.bad' does not exists." rfl⟩

/-- Every successful div-loop iteration updates exactly the processed
component's store slot: the running index is recorded and the disabled flag is
derived from the definition; nothing else in the store changes. -/
theorem divStep_store (i : Nat) (s : DivLoopState) (cid : Nat) (s2 : DivLoopState)
    (h : divStep i s cid = .ok s2) :
    s2.store = lset s.store cid
      { storeGet s.store cid with
        index := some (i : Int)
        disabled := parseBoolean
          (alistGet (storeGet s.store cid).definition UI_COMPONENT_DEFINITION_DISABLED) none } := by
  simp only [divStep] at h
  split at h
  · cases h
    rfl
  · split at h
    · cases h
      rfl
    · split at h
      · cases h
      · split at h
        · cases h
          rfl
        · split at h
          · cases h
            rfl
          · cases h
            rfl

/-- A successful div loop preserves the store's length. -/
theorem divLoop_store_length (ids : List Nat) (i : Nat) (s s2 : DivLoopState)
    (h : divLoop i ids s = .ok s2) : s2.store.length = s.store.length := by
  induction ids generalizing i s with
  | nil => cases h; rfl
  | cons x rest ih =>
      simp only [divLoop] at h
      cases hs : divStep i s x with
      | error m => rw [hs] at h; cases h
      | ok s1 =>
          rw [hs] at h
          have e1 : s1.store.length = s.store.length := by
            rw [divStep_store i s x s1 hs, length_lset]
          rw [ih _ _ h, e1]

/-- A successful div loop leaves components outside the processed id list
untouched. -/
theorem divLoop_preserves_other (ids : List Nat) (i : Nat) (s s2 : DivLoopState) (cid : Nat)
    (h : divLoop i ids s = .ok s2) (hmem : cid ∉ ids) :
    storeGet s2.store cid = storeGet s.store cid := by
  induction ids generalizing i s with
  | nil => cases h; rfl
  | cons x rest ih =>
      simp only [divLoop] at h
      cases hs : divStep i s x with
      | error m => rw [hs] at h; cases h
      | ok s1 =>
          rw [hs] at h
          have hx : x ≠ cid := by
            intro e
            exact hmem (e ▸ List.mem_cons_self x rest)
          have e1 : storeGet s1.store cid = storeGet s.store cid := by
            rw [divStep_store i s x s1 hs, storeGet_lset, if_neg (fun hh => hx hh.1)]
          rw [ih _ _ h (fun hm => hmem (List.mem_cons_of_mem _ hm)), e1]

/-- The processed component's slot carries the running index right after its
div-loop iteration. -/
theorem divStep_index_self (i : Nat) (s : DivLoopState) (cid : Nat) (s2 : DivLoopState)
    (h : divStep i s cid = .ok s2) (hlt : cid < s.store.length) :
    (storeGet s2.store cid).index = some (i : Int) := by
  rw [divStep_store i s cid s2 h, storeGet_lset, if_pos ⟨rfl, hlt⟩]

/-- After a successful div loop over distinct in-bounds ids starting at
counter i, the component at position k of the processed list carries index
i + k. -/
theorem divLoop_index (ids : List Nat) (i : Nat) (s s2 : DivLoopState)
    (h : divLoop i ids s = .ok s2) (hnd : ids.Nodup)
    (hlt : ∀ id ∈ ids, id < s.store.length) (k : Nat) (hk : k < ids.length) :
    (storeGet s2.store (ids.getD k 0)).index = some ((i + k : Nat) : Int) := by
  induction ids generalizing i s k with
  | nil => simp at hk
  | cons x rest ih =>
      simp only [divLoop] at h
      cases hs : divStep i s x with
      | error m => rw [hs] at h; cases h
      | ok s1 =>
          rw [hs] at h
          simp only [List.nodup_cons] at hnd
          obtain ⟨hxmem, hndrest⟩ := hnd
          cases k with
          | zero =>
              have e := divStep_index_self i s x s1 hs (hlt x (List.mem_cons_self x rest))
              have e2 := divLoop_preserves_other rest (i + 1) s1 s2 x h hxmem
              simp only [List.getD_cons_zero]
              rw [e2, e]
              norm_num
          | succ k2 =>
              have hlt2 : ∀ id ∈ rest, id < s1.store.length := by
                intro id hm
                have hb := hlt id (List.mem_cons_of_mem _ hm)
                rw [divStep_store i s x s1 hs, length_lset]
                exact hb
              have e := ih (i + 1) s1 h hndrest hlt2 k2 (by simpa using hk)
              simp only [List.getD_cons_succ]
              rw [e]
              have harith : (i + 1 + k2) = (i + (k2 + 1)) := by omega
              rw [harith]

/-- Every successful page-loop iteration updates exactly the processed
component's store slot with the running index and derived disabled flag. -/
theorem pageStep_store (L : List (String × Layout)) (i : Nat) (s : PageLoopState) (cid : Nat)
    (s2 : PageLoopState) (h : pageStep L i s cid = .ok s2) :
    s2.store = lset s.store cid
      { storeGet s.store cid with
        index := some (i : Int)
        disabled := parseBoolean
          (alistGet (storeGet s.store cid).definition UI_COMPONENT_DEFINITION_DISABLED) none } := by
  simp only [pageStep] at h
  split at h
  · cases h
    rfl
  · split at h
    · cases h
      rfl
    · split at h
      · cases h
      · split at h
        · cases h
        · cases h
          rfl

/-- A successful page loop preserves the store's length. -/
theorem pageLoop_store_length (L : List (String × Layout)) (ids : List Nat) (i : Nat)
    (s s2 : PageLoopState) (h : pageLoop L i ids s = .ok s2) :
    s2.store.length = s.store.length := by
  induction ids generalizing i s with
  | nil => cases h; rfl
  | cons x rest ih =>
      simp only [pageLoop] at h
      cases hs : pageStep L i s x with
      | error m => rw [hs] at h; cases h
      | ok s1 =>
          rw [hs] at h
          have e1 : s1.store.length = s.store.length := by
            rw [pageStep_store L i s x s1 hs, length_lset]
          rw [ih _ _ h, e1]

/-- A successful page loop leaves components outside the processed id list
untouched. -/
theorem pageLoop_preserves_other (L : List (String × Layout)) (ids : List Nat) (i : Nat)
    (s s2 : PageLoopState) (cid : Nat) (h : pageLoop L i ids s = .ok s2) (hmem : cid ∉ ids) :
    storeGet s2.store cid = storeGet s.store cid := by
  induction ids generalizing i s with
  | nil => cases h; rfl
  | cons x rest ih =>
      simp only [pageLoop] at h
      cases hs : pageStep L i s x with
      | error m => rw [hs] at h; cases h
      | ok s1 =>
          rw [hs] at h
          have hx : x ≠ cid := by
            intro e
            exact hmem (e ▸ List.mem_cons_self x rest)
          have e1 : storeGet s1.store cid = storeGet s.store cid := by
            rw [pageStep_store L i s x s1 hs, storeGet_lset, if_neg (fun hh => hx hh.1)]
          rw [ih _ _ h (fun hm => hmem (List.mem_cons_of_mem _ hm)), e1]

/-- The processed page's slot carries the running index right after its
page-loop iteration. -/
theorem pageStep_index_self (L : List (String × Layout)) (i : Nat) (s : PageLoopState)
    (cid : Nat) (s2 : PageLoopState) (h : pageStep L i s cid = .ok s2)
    (hlt : cid < s.store.length) :
    (storeGet s2.store cid).index = some (i : Int) := by
  rw [pageStep_store L i s cid s2 h, storeGet_lset, if_pos ⟨rfl, hlt⟩]

/-- After a successful page loop over distinct in-bounds ids starting at
counter n, the page at position k of the processed list carries index n + k. -/
theorem pageLoop_index (L : List (String × Layout)) (ids : List Nat) (n : Nat)
    (s s2 : PageLoopState) (h : pageLoop L n ids s = .ok s2) (hnd : ids.Nodup)
    (hlt : ∀ id ∈ ids, id < s.store.length) (k : Nat) (hk : k < ids.length) :
    (storeGet s2.store (ids.getD k 0)).index = some ((n + k : Nat) : Int) := by
  induction ids generalizing n s k with
  | nil => simp at hk
  | cons x rest ih =>
      simp only [pageLoop] at h
      cases hs : pageStep L n s x with
      | error m => rw [hs] at h; cases h
      | ok s1 =>
          rw [hs] at h
          simp only [List.nodup_cons] at hnd
          obtain ⟨hxmem, hndrest⟩ := hnd
          cases k with
          | zero =>
              have e := pageStep_index_self L n s x s1 hs (hlt x (List.mem_cons_self x rest))
              have e2 := pageLoop_preserves_other L rest (n + 1) s1 s2 x h hxmem
              simp only [List.getD_cons_zero]
              rw [e2, e]
              norm_num
          | succ k2 =>
              have hlt2 : ∀ id ∈ rest, id < s1.store.length := by
                intro id hm
                have hb := hlt id (List.mem_cons_of_mem _ hm)
                rw [pageStep_store L n s x s1 hs, length_lset]
                exact hb
              have e := ih (n + 1) s1 h hndrest hlt2 k2 (by simpa using hk)
              simp only [List.getD_cons_succ]
              rw [e]
              have harith : (n + 1 + k2) = (n + (k2 + 1)) := by omega
              rw [harith]

/-- C3 counterexample: on c3fs the divs are discovered in the order z.b, a.a,
but the indices recorded in the built lookup table follow the comparator-
sorted order (a.a gets 0, z.b gets 1), so index is not the discovery ordinal
and does depend on the sort order. -/
theorem c3_counterexample :
    discoveryNamesDivs c3fs = .ok ["z.b", "a.a"]
    ∧ buildLookupTable c3fs = .ok c3Table
    ∧ alistGet c3Table.divs "z.b" = some 0
    ∧ (storeGet c3Table.divStore 0).index = some 1
    ∧ alistGet c3Table.divs "a.a" = some 1
    ∧ (storeGet c3Table.divStore 1).index = some 0 :=
  ⟨rfl, rfl, rfl, rfl, rfl, rfl⟩

/-- C3 (amended): the index recorded on each component equals its ordinal
position in the comparator-sorted array the registry loops iterate (offset by
the number of divs for pages), not its discovery position. -/
theorem c3_index_follows_sorted_order (ids pids : List Nat) (i n : Nat)
    (s : DivLoopState) (s2 : DivLoopState) (t : PageLoopState) (t2 : PageLoopState)
    (L : List (String × Layout)) :
    (divLoop i ids s = .ok s2 → ids.Nodup → (∀ id ∈ ids, id < s.store.length) →
      ∀ k, k < ids.length → (storeGet s2.store (ids.getD k 0)).index = some ((i + k : Nat) : Int))
    ∧ (pageLoop L n pids t = .ok t2 → pids.Nodup → (∀ id ∈ pids, id < t.store.length) →
      ∀ k, k < pids.length →
        (storeGet t2.store (pids.getD k 0)).index = some ((n + k : Nat) : Int)) :=
  ⟨fun h hnd hlt k hk => divLoop_index ids i s s2 h hnd hlt k hk,
   fun h hnd hlt k hk => pageLoop_index L pids n t t2 h hnd hlt k hk⟩

/-- C3 witness: the amended theorem applied to a concrete div loop processing
ids in the order 1, 0 (the second stored div gets index 0, the first gets 1)
and a concrete page loop starting at counter base 2. -/
theorem c3_index_witness :
    divLoop 0 [1, 0] c3wDivState = .ok c3wDivRes
    ∧ pageLoop [] 2 [0] c3wPageState = .ok c3wPageRes
    ∧ (storeGet c3wDivRes.store ([1, 0].getD 1 0)).index = some ((0 + 1 : Nat) : Int)
    ∧ (storeGet c3wPageRes.store ([0].getD 0 0)).index = some ((2 + 0 : Nat) : Int) :=
  ⟨rfl, rfl,
   (c3_index_follows_sorted_order [1, 0] [0] 0 2 c3wDivState c3wDivRes c3wPageState c3wPageRes
      []).1 rfl (by decide) (by decide) 1 (by decide),
   (c3_index_follows_sorted_order [1, 0] [0] 0 2 c3wDivState c3wDivRes c3wPageState c3wPageRes
      []).2 rfl (by decide) (by decide) 0 (by decide)⟩

/-- C7: an enabled component with a non-empty children set (an overridden
component) is processed without consulting validation (its iteration cannot
fail), is recorded in the all-components map, and leaves the pushed-divs
index respectively the page-URI map exactly as they were. -/
theorem c7_overridden_component_skipped (i : Nat) (s : DivLoopState) (cid : Nat)
    (L : List (String × Layout)) (t : PageLoopState) (pid : Nat)
    (hd : parseBoolean (alistGet (storeGet s.store cid).definition
        UI_COMPONENT_DEFINITION_DISABLED) none = false)
    (hc : (storeGet s.store cid).children.length ≠ 0)
    (hpd : parseBoolean (alistGet (storeGet t.store pid).definition
        UI_COMPONENT_DEFINITION_DISABLED) none = false)
    (hpc : (storeGet t.store pid).children.length ≠ 0) :
    divStep i s cid = .ok
      { store := lset s.store cid
          { storeGet s.store cid with index := some (i : Int), disabled := false }
        allUi := alistPut s.allUi (storeGet s.store cid).fullName (CompRef.div cid)
        pushedDivs := s.pushedDivs }
    ∧ pageStep L i t pid = .ok
      { store := lset t.store pid
          { storeGet t.store pid with index := some (i : Int), disabled := false }
        allUi := alistPut t.allUi (storeGet t.store pid).fullName (CompRef.page pid)
        uriPagesMap := t.uriPagesMap } := by
  constructor
  · simp only [divStep, hd]
    simp [hc]
  · simp only [pageStep, hpd]
    simp [hpc]

/-- C7 witness: the skip theorem applied to a concrete overridden div (with a
pushed-URIs field that is never indexed) and a concrete overridden page (with
a URI that is never registered). -/
theorem c7_overridden_witness :
    parseBoolean (alistGet (storeGet c7DivState.store 0).definition
        UI_COMPONENT_DEFINITION_DISABLED) none = false
    ∧ (storeGet c7DivState.store 0).children.length ≠ 0
    ∧ (divStep 0 c7DivState 0 = .ok
        { store := lset c7DivState.store 0
            { storeGet c7DivState.store 0 with index := some (0 : Int), disabled := false }
          allUi := alistPut c7DivState.allUi (storeGet c7DivState.store 0).fullName
            (CompRef.div 0)
          pushedDivs := c7DivState.pushedDivs }
      ∧ pageStep [] 0 c7PageState 0 = .ok
        { store := lset c7PageState.store 0
            { storeGet c7PageState.store 0 with index := some (0 : Int), disabled := false }
          allUi := alistPut c7PageState.allUi (storeGet c7PageState.store 0).fullName
            (CompRef.page 0)
          uriPagesMap := c7PageState.uriPagesMap }) :=
  ⟨rfl, by decide,
   c7_overridden_component_skipped 0 c7DivState 0 [] c7PageState 0 rfl (by decide) rfl
     (by decide)⟩

/-- Reading below the old length is unaffected by appending to the store. -/
theorem storeGet_append_lt (store cs : List UIComponent) (i : Nat) (h : i < store.length) :
    storeGet (store ++ cs) i = storeGet store i := by
  induction store generalizing i with
  | nil => simp at h
  | cons x xs ih =>
      cases i with
      | zero => rfl
      | succ n =>
          show ((x :: (xs ++ cs)).getD (n + 1) default) = ((x :: xs).getD (n + 1) default)
          rw [List.getD_cons_succ, List.getD_cons_succ]
          exact ih n (by simpa using h)

/-- Reading the freshly appended slot yields the appended component. -/
theorem storeGet_append_self (store : List UIComponent) (c : UIComponent) :
    storeGet (store ++ [c]) store.length = c := by
  induction store with
  | nil => rfl
  | cons x xs ih =>
      show ((x :: (xs ++ [c])).getD (xs.length + 1) default) = c
      rw [List.getD_cons_succ]
      exact ih

/-- A non-directory listing entry leaves the registry untouched. -/
theorem populateStep_skip (fs : FileSys) (cp ct : String) (reg : Registry) (e : FsEntry)
    (h : e.isDirectory = false) : populateStep fs cp ct reg e = .ok reg := by
  simp [populateStep, h]

/-- A directory entry that discovery accepts appends exactly one fresh
component named after the directory: to the store, to the map and to the list. -/
theorem populateStep_dir (fs : FileSys) (cp ct : String) (reg : Registry) (e : FsEntry)
    (reg2 : Registry) (hdir : e.isDirectory = true)
    (h : populateStep fs cp ct reg e = .ok reg2) :
    ∃ c : UIComponent, c.fullName = e.name ∧ reg2.store = reg.store ++ [c]
      ∧ reg2.map = alistPut reg.map e.name reg.store.length
      ∧ reg2.list = reg.list ++ [reg.store.length] := by
  by_cases h1 : strDropJs e.name (jsLastIndexOfDot e.name + 1).toNat = ""
  · simp [populateStep, hdir, h1] at h
  · by_cases h2 : fs.fileExists (cp ++ "/" ++ e.name ++ "/"
        ++ strDropJs e.name (jsLastIndexOfDot e.name + 1).toNat ++ ".json")
    · simp only [populateStep, hdir, Bool.not_true, Bool.false_eq_true, if_false, h1,
        if_neg, h2, Bool.not_true, Except.ok.injEq] at h
      subst h
      exact ⟨_, rfl, rfl, rfl, rfl⟩
    · simp [populateStep, hdir, h1, h2] at h

/-- Over one directory listing, a successful discovery appends exactly the
directory entries' names to the ordered list (in listing order) and keeps all
list ids within the store. -/
theorem populateList_names (fs : FileSys) (cp ct : String) (es : List FsEntry)
    (reg reg2 : Registry) (h : populateList fs cp ct es reg = .ok reg2)
    (hb : ∀ id ∈ reg.list, id < reg.store.length) :
    regNames reg2 = regNames reg ++ (es.filter (fun e => e.isDirectory)).map (fun e => e.name)
    ∧ (∀ id ∈ reg2.list, id < reg2.store.length) := by
  induction es generalizing reg with
  | nil =>
      cases h
      exact ⟨by simp, hb⟩
  | cons e rest ih =>
      simp only [populateList] at h
      cases hs : populateStep fs cp ct reg e with
      | error m => rw [hs] at h; cases h
      | ok reg1 =>
          rw [hs] at h
          by_cases hdir : e.isDirectory
          · obtain ⟨c, hname, hstore, hmap, hlist⟩ := populateStep_dir fs cp ct reg e reg1 hdir hs
            have hb1 : ∀ id ∈ reg1.list, id < reg1.store.length := by
              intro id hm
              rw [hlist] at hm
              rw [hstore]
              simp only [List.length_append, List.length_cons, List.length_nil]
              rcases List.mem_append.mp hm with hm1 | hm2
              · have := hb id hm1
                omega
              · simp at hm2
                omega
            have hnames1 : regNames reg1 = regNames reg ++ [e.name] := by
              unfold regNames
              rw [hlist, hstore, List.map_append]
              congr 1
              · apply List.map_congr_left
                intro id hm
                rw [storeGet_append_lt reg.store [c] id (hb id hm)]
              · simp [storeGet_append_self, hname]
            obtain ⟨ha, hb2⟩ := ih reg1 h hb1
            refine ⟨?_, hb2⟩
            rw [ha, hnames1, List.filter_cons, if_pos (by simpa using hdir)]
            simp
          · have hskip := populateStep_skip fs cp ct reg e (by simpa using hdir)
            have e1 : reg1 = reg := (Except.ok.inj (hskip.symm.trans hs)).symm
            subst e1
            obtain ⟨ha, hb2⟩ := ih reg1 h hb
            refine ⟨?_, hb2⟩
            rw [ha, List.filter_cons, if_neg (by simpa using hdir)]

/-- Discovery over one listing preserves duplicate-freedom of the map keys. -/
theorem populateList_map_nodup (fs : FileSys) (cp ct : String) (es : List FsEntry)
    (reg reg2 : Registry) (h : populateList fs cp ct es reg = .ok reg2)
    (hnd : (reg.map.map Prod.fst).Nodup) : (reg2.map.map Prod.fst).Nodup := by
  induction es generalizing reg with
  | nil => cases h; exact hnd
  | cons e rest ih =>
      simp only [populateList] at h
      cases hs : populateStep fs cp ct reg e with
      | error m => rw [hs] at h; cases h
      | ok reg1 =>
          rw [hs] at h
          by_cases hdir : e.isDirectory
          · obtain ⟨c, hname, hstore, hmap, hlist⟩ := populateStep_dir fs cp ct reg e reg1 hdir hs
            exact ih reg1 h (hmap ▸ alistPut_keys_nodup reg.map e.name reg.store.length hnd)
          · have hskip := populateStep_skip fs cp ct reg e (by simpa using hdir)
            have e1 : reg1 = reg := (Except.ok.inj (hskip.symm.trans hs)).symm
            subst e1
            exact ih reg1 h hnd

/-- The collection traversal preserves duplicate-freedom of the map keys. -/
theorem collectionsList_map_nodup (fs : FileSys) (ct cp : String) (es : List FsEntry)
    (reg reg2 : Registry) (h : collectionsList fs ct cp es reg = .ok reg2)
    (hnd : (reg.map.map Prod.fst).Nodup) : (reg2.map.map Prod.fst).Nodup := by
  induction es generalizing reg with
  | nil => cases h; exact hnd
  | cons e rest ih =>
      simp only [collectionsList] at h
      by_cases hdir : e.isDirectory
      · simp only [hdir, Bool.not_true] at h
        simp only [Bool.false_eq_true, if_false] at h
        cases hs : populateComponentCollections fs
            (DIRECTORY_APP_COMPONENTS ++ "/" ++ e.name ++ cp) ct reg with
        | error m => rw [hs] at h; cases h
        | ok reg1 =>
            rw [hs] at h
            exact ih reg1 h (populateList_map_nodup fs _ ct _ reg reg1 hs hnd)
      · simp only [Bool.not_eq_true] at hdir
        simp only [hdir, Bool.not_false, if_true] at h
        exact ih reg h hnd

/-- The inheritance walk never changes the by-name map (it mutates component
objects in the store only). -/
theorem chainWalk_map (ct : String) (cid : Nat) (fuel : Nat) (pv : Option JVal)
    (reg reg2 : Registry) (h : chainWalk ct cid fuel pv reg = .ok reg2) :
    reg2.map = reg.map := by
  induction fuel generalizing pv reg with
  | zero => cases h
  | succ fuel ih =>
      simp only [chainWalk] at h
      split at h
      · cases h
        rfl
      · split at h
        · cases h
        · exact (ih _ _ h).trans rfl

/-- The inheritance chaining loop never changes the by-name map. -/
theorem chainList_map (ct : String) (ids : List Nat) (reg reg2 : Registry)
    (h : chainList ct ids reg = .ok reg2) : reg2.map = reg.map := by
  induction ids generalizing reg with
  | nil => cases h; rfl
  | cons cid rest ih =>
      simp only [chainList] at h
      cases hs : chainWalk ct cid (reg.store.length + 1)
          (alistGet (storeGet reg.store cid).definition UI_COMPONENT_DEFINITION_EXTENDS) reg with
      | error m => rw [hs] at h; cases h
      | ok reg1 =>
          rw [hs] at h
          rw [ih reg1 h, chainWalk_map ct cid _ _ reg reg1 hs]

/-- The by-name map of a successfully discovered registry binds every full
name at most once (later bindings overwrite in place). -/
theorem getUiComponentsData_map_nodup (fs : FileSys) (ct cp : String) (r : Registry)
    (h : getUiComponentsData fs ct cp = .ok r) : (r.map.map Prod.fst).Nodup := by
  unfold getUiComponentsData at h
  cases hp : populateAll fs ct cp with
  | error m =>
      simp only [hp] at h
      cases h
  | ok reg =>
      simp only [hp] at h
      cases hc : chainList ct reg.list reg with
      | error m =>
          simp only [hc] at h
          cases h
      | ok reg2 =>
          simp only [hc] at h
          cases h
          have h1 : (reg.map.map Prod.fst).Nodup := by
            unfold populateAll at hp
            exact collectionsList_map_nodup fs ct cp (fs.listFiles DIRECTORY_APP_COMPONENTS)
              { store := [], map := [], list := [] } reg hp (by simp)
          have h2 := chainList_map ct reg.list reg reg2 hc
          simpa [h2] using h1

/-- C4 (amended): fullName is unique as a key of the per-type map in every
successful discovery (the second of two equally-named components overwrites
the first); the ordered list, however, receives one entry per discovered
directory — its names extend by exactly the listing's directory names for
each collection — so equally-named directories in different collections
produce duplicate list entries. -/
theorem c4_fullname_uniqueness (fs : FileSys) (componentType componentsPath : String)
    (r : Registry) (cp2 ct2 : String) (reg reg2 : Registry) :
    (getUiComponentsData fs componentType componentsPath = .ok r →
      (r.map.map Prod.fst).Nodup)
    ∧ (populateComponentCollections fs cp2 ct2 reg = .ok reg2 →
        (∀ id ∈ reg.list, id < reg.store.length) →
        regNames reg2 = regNames reg
          ++ ((fs.listFiles cp2).filter (fun e => e.isDirectory)).map (fun e => e.name)) :=
  ⟨fun h => getUiComponentsData_map_nodup fs componentType componentsPath r h,
   fun h hb => (populateList_names fs cp2 ct2 (fs.listFiles cp2) reg reg2 h hb).1⟩

/-- C4 witness: on the single-collection filesystem c3fs the discovered map
keys are duplicate-free and one collection pass appends exactly its two
directory names to the list. -/
theorem c4_fullname_witness :
    getUiComponentsData c3fs "div" DIRECTORY_APP_DIVS = .ok c3DivsData
    ∧ (c3DivsData.map.map Prod.fst).Nodup
    ∧ populateComponentCollections c3fs "/app/components/app1/divs" "div" emptyReg = .ok c4wReg
    ∧ regNames c4wReg = regNames emptyReg
        ++ ((c3fs.listFiles "/app/components/app1/divs").filter
            (fun e => e.isDirectory)).map (fun e => e.name) :=
  ⟨rfl,
   (c4_fullname_uniqueness c3fs "div" DIRECTORY_APP_DIVS c3DivsData "/app/components/app1/divs"
      "div" emptyReg c4wReg).1 rfl,
   rfl,
   (c4_fullname_uniqueness c3fs "div" DIRECTORY_APP_DIVS c3DivsData "/app/components/app1/divs"
      "div" emptyReg c4wReg).2 rfl (by simp [emptyReg])⟩

/-- C4 counterexample: with two collections both providing a div directory
named a.b, discovery succeeds and the ordered list holds the full name a.b
twice (while the map holds a single binding), contradicting the claim that no
two registry entries share a fullName. -/
theorem c4_counterexample :
    discoveryNamesDivs c4fs = .ok ["a.b", "a.b"]
    ∧ (populateAll c4fs "div" DIRECTORY_APP_DIVS).map (fun r => r.map.map Prod.fst)
        = .ok ["a.b"]
    ∧ ¬ (["a.b", "a.b"] : List String).Nodup :=
  ⟨rfl, rfl, by simp⟩

/-- A div-loop iteration never changes any component's definition, and it
either leaves the all-components map unchanged (disabled component) or adds
the processed component under its full name after its disabled flag parsed
false. -/
theorem divStep_allUi (i : Nat) (s : DivLoopState) (cid : Nat) (s2 : DivLoopState)
    (h : divStep i s cid = .ok s2) :
    (∀ j : Nat, (storeGet s2.store j).definition = (storeGet s.store j).definition)
    ∧ (s2.allUi = s.allUi
       ∨ (s2.allUi = alistPut s.allUi (storeGet s.store cid).fullName (CompRef.div cid)
          ∧ parseBoolean (alistGet (storeGet s.store cid).definition
              UI_COMPONENT_DEFINITION_DISABLED) none = false)) := by
  have hst := divStep_store i s cid s2 h
  constructor
  · intro j
    rw [hst, storeGet_lset]
    by_cases hj : cid = j ∧ cid < s.store.length
    · rw [if_pos hj]
      rcases hj with ⟨hj1, _⟩
      subst hj1
      rfl
    · rw [if_neg hj]
  · simp only [divStep] at h
    split at h
    · cases h
      exact Or.inl rfl
    · rename_i hdis
      split at h
      · cases h
        exact Or.inr ⟨rfl, by simpa using hdis⟩
      · split at h
        · cases h
        · split at h
          · cases h
            exact Or.inr ⟨rfl, by simpa using hdis⟩
          · split at h
            · cases h
              exact Or.inr ⟨rfl, by simpa using hdis⟩
            · cases h
              exact Or.inr ⟨rfl, by simpa using hdis⟩

/-- A page-loop iteration never changes any component's definition, and it
either leaves the all-components map unchanged (disabled page) or adds the
processed page under its full name after its disabled flag parsed false. -/
theorem pageStep_allUi (L : List (String × Layout)) (i : Nat) (s : PageLoopState) (cid : Nat)
    (s2 : PageLoopState) (h : pageStep L i s cid = .ok s2) :
    (∀ j : Nat, (storeGet s2.store j).definition = (storeGet s.store j).definition)
    ∧ (s2.allUi = s.allUi
       ∨ (s2.allUi = alistPut s.allUi (storeGet s.store cid).fullName (CompRef.page cid)
          ∧ parseBoolean (alistGet (storeGet s.store cid).definition
              UI_COMPONENT_DEFINITION_DISABLED) none = false)) := by
  have hst := pageStep_store L i s cid s2 h
  constructor
  · intro j
    rw [hst, storeGet_lset]
    by_cases hj : cid = j ∧ cid < s.store.length
    · rw [if_pos hj]
      rcases hj with ⟨hj1, _⟩
      subst hj1
      rfl
    · rw [if_neg hj]
  · simp only [pageStep] at h
    split at h
    · cases h
      exact Or.inl rfl
    · rename_i hdis
      split at h
      · cases h
        exact Or.inr ⟨rfl, by simpa using hdis⟩
      · split at h
        · cases h
        · split at h
          · cases h
          · cases h
            exact Or.inr ⟨rfl, by simpa using hdis⟩

/-- Along a successful div loop, every div reference held in the
all-components map points at a component whose merged definition parses as
enabled. -/
theorem divLoop_allUi_inv (ids : List Nat) (i : Nat) (s s2 : DivLoopState)
    (h : divLoop i ids s = .ok s2)
    (hinv : ∀ name j, alistGet s.allUi name = some (CompRef.div j) →
        parseBoolean (alistGet (storeGet s.store j).definition
          UI_COMPONENT_DEFINITION_DISABLED) none = false) :
    ∀ name j, alistGet s2.allUi name = some (CompRef.div j) →
        parseBoolean (alistGet (storeGet s2.store j).definition
          UI_COMPONENT_DEFINITION_DISABLED) none = false := by
  induction ids generalizing i s with
  | nil =>
      cases h
      exact hinv
  | cons x rest ih =>
      simp only [divLoop] at h
      cases hs : divStep i s x with
      | error m => rw [hs] at h; cases h
      | ok s1 =>
          rw [hs] at h
          obtain ⟨hdef, hallui⟩ := divStep_allUi i s x s1 hs
          apply ih (i + 1) s1 h
          intro name j hget
          rcases hallui with he | ⟨he, hdis⟩
          · rw [he] at hget
            rw [hdef j]
            exact hinv name j hget
          · rw [he, alistGet_put] at hget
            by_cases hn : (storeGet s.store x).fullName = name
            · rw [if_pos hn] at hget
              have hxj : CompRef.div x = CompRef.div j := Option.some.inj hget
              cases hxj
              rw [hdef x]
              exact hdis
            · rw [if_neg hn] at hget
              rw [hdef j]
              exact hinv name j hget

/-- The div loop never introduces page references into the all-components
map. -/
theorem divLoop_no_page_refs (ids : List Nat) (i : Nat) (s s2 : DivLoopState)
    (h : divLoop i ids s = .ok s2)
    (hinv : ∀ name j, alistGet s.allUi name = some (CompRef.page j) → False) :
    ∀ name j, alistGet s2.allUi name = some (CompRef.page j) → False := by
  induction ids generalizing i s with
  | nil =>
      cases h
      exact hinv
  | cons x rest ih =>
      simp only [divLoop] at h
      cases hs : divStep i s x with
      | error m => rw [hs] at h; cases h
      | ok s1 =>
          rw [hs] at h
          obtain ⟨hdef, hallui⟩ := divStep_allUi i s x s1 hs
          apply ih (i + 1) s1 h
          intro name j hget
          rcases hallui with he | ⟨he, hdis⟩
          · rw [he] at hget
            exact hinv name j hget
          · rw [he, alistGet_put] at hget
            by_cases hn : (storeGet s.store x).fullName = name
            · rw [if_pos hn] at hget
              cases Option.some.inj hget
            · rw [if_neg hn] at hget
              exact hinv name j hget

/-- The page loop preserves any property of the div references held in the
all-components map (it only adds page references and never touches the div
store). -/
theorem pageLoop_div_refs (L : List (String × Layout)) (ids : List Nat) (n : Nat)
    (t t2 : PageLoopState) (h : pageLoop L n ids t = .ok t2) (P : Nat → Prop)
    (hinv : ∀ name j, alistGet t.allUi name = some (CompRef.div j) → P j) :
    ∀ name j, alistGet t2.allUi name = some (CompRef.div j) → P j := by
  induction ids generalizing n t with
  | nil =>
      cases h
      exact hinv
  | cons x rest ih =>
      simp only [pageLoop] at h
      cases hs : pageStep L n t x with
      | error m => rw [hs] at h; cases h
      | ok t1 =>
          rw [hs] at h
          obtain ⟨hdef, hallui⟩ := pageStep_allUi L n t x t1 hs
          apply ih (n + 1) t1 h
          intro name j hget
          rcases hallui with he | ⟨he, hdis⟩
          · rw [he] at hget
            exact hinv name j hget
          · rw [he, alistGet_put] at hget
            by_cases hn : (storeGet t.store x).fullName = name
            · rw [if_pos hn] at hget
              cases Option.some.inj hget
            · rw [if_neg hn] at hget
              exact hinv name j hget

/-- Along a successful page loop, every page reference held in the
all-components map points at a page whose merged definition parses as
enabled. -/
theorem pageLoop_allUi_inv (L : List (String × Layout)) (ids : List Nat) (n : Nat)
    (t t2 : PageLoopState) (h : pageLoop L n ids t = .ok t2)
    (hinv : ∀ name j, alistGet t.allUi name = some (CompRef.page j) →
        parseBoolean (alistGet (storeGet t.store j).definition
          UI_COMPONENT_DEFINITION_DISABLED) none = false) :
    ∀ name j, alistGet t2.allUi name = some (CompRef.page j) →
        parseBoolean (alistGet (storeGet t2.store j).definition
          UI_COMPONENT_DEFINITION_DISABLED) none = false := by
  induction ids generalizing n t with
  | nil =>
      cases h
      exact hinv
  | cons x rest ih =>
      simp only [pageLoop] at h
      cases hs : pageStep L n t x with
      | error m => rw [hs] at h; cases h
      | ok t1 =>
          rw [hs] at h
          obtain ⟨hdef, hallui⟩ := pageStep_allUi L n t x t1 hs
          apply ih (n + 1) t1 h
          intro name j hget
          rcases hallui with he | ⟨he, hdis⟩
          · rw [he] at hget
            rw [hdef j]
            exact hinv name j hget
          · rw [he, alistGet_put] at hget
            by_cases hn : (storeGet t.store x).fullName = name
            · rw [if_pos hn] at hget
              have hxj : CompRef.page x = CompRef.page j := Option.some.inj hget
              cases hxj
              rw [hdef x]
              exact hdis
            · rw [if_neg hn] at hget
              rw [hdef j]
              exact hinv name j hget

/-- C6 (amended): in every built lookup table the divs and pages maps are the
raw per-type discovery maps — they contain every discovered component of the
type, disabled ones included — while the all-components map (uiComponents)
contains only components whose merged definition parses as enabled. -/
theorem c6_maps_content (fs : FileSys) (t : LookupTable) (dreg preg : Registry)
    (h : buildLookupTable fs = .ok t) :
    (getUiComponentsData fs "div" DIRECTORY_APP_DIVS = .ok dreg → t.divs = dreg.map)
    ∧ (getUiComponentsData fs "page" DIRECTORY_APP_PAGES = .ok preg → t.pages = preg.map)
    ∧ (∀ name ref, alistGet t.uiComponents name = some ref →
        parseBoolean (alistGet (refDefinition t ref) UI_COMPONENT_DEFINITION_DISABLED) none
          = false) := by
  unfold buildLookupTable at h
  cases hd : getUiComponentsData fs "div" DIRECTORY_APP_DIVS with
  | error m =>
      simp only [hd] at h
      cases h
  | ok divsData =>
      simp only [hd] at h
      cases hdl : divLoop 0 divsData.list
          { store := divsData.store, allUi := [], pushedDivs := [] } with
      | error m =>
          simp only [hdl] at h
          cases h
      | ok ds =>
          simp only [hdl] at h
          cases hp : getUiComponentsData fs "page" DIRECTORY_APP_PAGES with
          | error m =>
              simp only [hp] at h
              cases h
          | ok pagesData =>
              simp only [hp] at h
              cases hpl : pageLoop (getLayoutsData fs DIRECTORY_APP_LAYOUTS)
                  divsData.list.length pagesData.list
                  { store := pagesData.store, allUi := ds.allUi, uriPagesMap := [] } with
              | error m =>
                  simp only [hpl] at h
                  cases h
              | ok ps =>
                  simp only [hpl] at h
                  cases h
                  refine ⟨?_, ?_, ?_⟩
                  · intro h2
                    have e : divsData = dreg := Except.ok.inj h2
                    rw [← e]
                  · intro h2
                    have e : pagesData = preg := Except.ok.inj h2
                    rw [← e]
                  · intro name ref hget
                    have hdivinv := divLoop_allUi_inv divsData.list 0
                      { store := divsData.store, allUi := [], pushedDivs := [] } ds hdl
                      (by intro name j hg; simp [alistGet] at hg)
                    have hnopage := divLoop_no_page_refs divsData.list 0
                      { store := divsData.store, allUi := [], pushedDivs := [] } ds hdl
                      (by intro name j hg; simp [alistGet] at hg)
                    cases ref with
                    | div j =>
                        exact pageLoop_div_refs (getLayoutsData fs DIRECTORY_APP_LAYOUTS)
                          pagesData.list divsData.list.length
                          { store := pagesData.store, allUi := ds.allUi, uriPagesMap := [] } ps
                          hpl
                          (fun j2 => parseBoolean (alistGet (storeGet ds.store j2).definition
                            UI_COMPONENT_DEFINITION_DISABLED) none = false)
                          (fun name2 j2 hg2 => hdivinv name2 j2 hg2) name j hget
                    | page j =>
                        exact pageLoop_allUi_inv (getLayoutsData fs DIRECTORY_APP_LAYOUTS)
                          pagesData.list divsData.list.length
                          { store := pagesData.store, allUi := ds.allUi, uriPagesMap := [] } ps
                          hpl
                          (fun name2 j2 hg2 => (hnopage name2 j2 hg2).elim)
                          name j hget

/-- C6 witness: on c3fs the built table's divs and pages maps are the raw
discovery maps and the enabled div z.b registered in uiComponents parses as
enabled. -/
theorem c6_maps_witness :
    buildLookupTable c3fs = .ok c3Table
    ∧ c3Table.divs = c3DivsData.map
    ∧ c3Table.pages = c3PagesData.map
    ∧ parseBoolean (alistGet (refDefinition c3Table (CompRef.div 0))
        UI_COMPONENT_DEFINITION_DISABLED) none = false :=
  ⟨rfl,
   (c6_maps_content c3fs c3Table c3DivsData c3PagesData rfl).1 rfl,
   (c6_maps_content c3fs c3Table c3DivsData c3PagesData rfl).2.1 rfl,
   (c6_maps_content c3fs c3Table c3DivsData c3PagesData rfl).2.2 "z.b" (CompRef.div 0) rfl⟩

/-- C6 counterexample: on a filesystem whose only div is disabled, the built
lookup table's divs map still contains that div — its merged definition parses
disabled as true — while uiComponents is empty; so the divs map does not
contain exactly the enabled divs. -/
theorem c6_counterexample :
    (buildLookupTable c6fs).map (fun t => t.divs.map Prod.fst) = .ok ["a.x"]
    ∧ (buildLookupTable c6fs).map (fun t => t.uiComponents.map Prod.fst) = .ok []
    ∧ (buildLookupTable c6fs).map (fun t =>
        match alistGet t.divs "a.x" with
        | some id => parseBoolean (alistGet (storeGet t.divStore id).definition
            UI_COMPONENT_DEFINITION_DISABLED) none
        | none => false) = .ok true :=
  ⟨rfl, rfl, rfl⟩
